import Mathlib

/-!
Shallow embedding of the propositional refutation-resolution core of the
repository (exercise2): literals, clauses, resolvents, the two
simplification strategies, the control-strategy state with its public
operations, and the `RefutationResolution.resolve` saturation loop.

Modelling conventions, applied throughout:

* Python `frozenset`/`set` of literals becomes `Finset LogicLiteral`;
  a clause is exactly such a finset (`class Clause(FrozenSet[LogicLiteral])`).
* CPython's built-in string hash is an unspecified function that is
  injective in practice (hash collisions between the short variable
  names occurring in a run are astronomically unlikely and the program
  is written assuming they do not happen).  It is modelled by
  `pyStrHash`, an explicit injective non-negative encoding; only
  injectivity on the concrete inputs and non-negativity are relied on.
  Consequently a Python set of literals dedups exactly structurally
  (two literals collide in a set iff variable strings and polarities
  are equal verbatim), which is why sets of literals/clauses are
  modelled with structural `Finset`s.
* Python set iteration order is unspecified.  Wherever the observable
  result is independent of the order (all the facts proved here), the
  model either works on `Finset`s directly or fixes one admissible
  enumeration as an explicit `List`; counterexample inputs are chosen
  so that every admissible order produces the same observable outcome.
* Sets of `Resolvent` objects are keyed by clause equality (the
  inherited `Clause.__eq__`/`__hash__` ignore the parent fields), so
  insertions into such sets are guarded by clause membership.
-/

/-- Embedding of `LogicLiteral` (src/exercise2/data_structures/logic_literal.py):
a propositional variable with a polarity.  The field `var` is the source's
`_variable`, `negated` is `_is_negated`. -/
structure LogicLiteral where
  var : String
  negated : Bool
deriving DecidableEq, Repr

/-- Embedding of `LogicLiteral.__neg__`: flip the polarity, keep the variable. -/
def LogicLiteral.negate (l : LogicLiteral) : LogicLiteral :=
  ⟨l.var, !l.negated⟩

instance : Neg LogicLiteral := ⟨LogicLiteral.negate⟩

/-- Lower-casing of an ASCII character, mirroring `str.lower` on the
variable names used by the program (ASCII identifiers). -/
def lowerChar (c : Char) : Char :=
  if 65 ≤ c.toNat ∧ c.toNat ≤ 90 then Char.ofNat (c.toNat + 32) else c

/-- Lower-casing of a string, character by character (model of `str.lower`). -/
def lowerStr (s : String) : String := ⟨s.data.map lowerChar⟩

/-- Embedding of `LogicLiteral.has_same_variable_as`:
case-insensitive comparison of the variable strings. -/
def LogicLiteral.hasSameVariableAs (l1 l2 : LogicLiteral) : Prop :=
  lowerStr l1.var = lowerStr l2.var

instance (l1 l2 : LogicLiteral) : Decidable (l1.hasSameVariableAs l2) := by
  unfold LogicLiteral.hasSameVariableAs; infer_instance

/-- Embedding of `LogicLiteral.__eq__`: same variable up to case and same
polarity. -/
def LogicLiteral.eqPy (l1 l2 : LogicLiteral) : Prop :=
  l1.hasSameVariableAs l2 ∧ l1.negated = l2.negated

instance (l1 l2 : LogicLiteral) : Decidable (l1.eqPy l2) := by
  unfold LogicLiteral.eqPy; infer_instance

/-- Model of CPython's built-in string hash: an explicit injective
non-negative encoding (base 1114112 exceeds every Unicode code point, and
the leading 1 separates strings of different lengths).  The real hash is
an unspecified function; the program relies only on distinct strings
hashing distinctly, which this model makes exact. -/
def pyStrHash (s : String) : Int :=
  s.data.foldl (fun a c => a * 1114112 + c.toNat) 1

/-- Embedding of `LogicLiteral.__hash__`:
`~hash(self._variable) if self._is_negated else hash(self._variable)`.
Python's bitwise complement `~x` is `-x - 1`.  Note the source hashes the
raw variable string, without `lower()`. -/
def LogicLiteral.hashPy (l : LogicLiteral) : Int :=
  if l.negated then -(pyStrHash l.var) - 1 else pyStrHash l.var

/-- Embedding of `LogicLiteral.parse`: a leading `~` marks negation, the
rest is the variable. -/
def LogicLiteral.parse (s : String) : LogicLiteral :=
  match s.data with
  | '~' :: rest => ⟨⟨rest⟩, true⟩
  | _ => ⟨s, false⟩

/-- Embedding of `Clause` (src/exercise2/data_structures/clause.py): a
frozenset of logic literals. -/
abbrev Clause := Finset LogicLiteral

/-- Embedding of the loop body of `Clause.remove_complementary_literals`:
iterate over the input literals in the given order; whenever the current
literal's complement is still in the working set, remove the literal and
its complement together.  The list argument is the (unspecified)
iteration order of the input frozenset. -/
def removeComplementaryLoop : List LogicLiteral → Finset LogicLiteral → Finset LogicLiteral
  | [], cur => cur
  | l :: ls, cur =>
      if -l ∈ cur then removeComplementaryLoop ls ((cur.erase l).erase (-l))
      else removeComplementaryLoop ls cur

/-- Embedding of `Clause.remove_complementary_literals`.  The source's
loop (see `removeComplementaryLoop`) removes, for every complementary
pair present in the input set, both members; its net result is
independent of the iteration order and equals this filter
(theorem `removeComplementaryLoop_eq`). -/
def removeComplementaryLiterals (S : Finset LogicLiteral) : Finset LogicLiteral :=
  S.filter (fun l => -l ∉ S)

/-- Embedding of `Clause.is_tautology`: the clause contains some literal
together with its complement. -/
def Clause.isTautology (c : Clause) : Prop :=
  ∃ l ∈ c, -l ∈ c

instance (c : Clause) : Decidable c.isTautology := by
  unfold Clause.isTautology; infer_instance

/-- Embedding of `Clause.is_nil`: the clause has no literals. -/
def Clause.isNil (c : Clause) : Prop := c = ∅

instance (c : Clause) : Decidable c.isNil := by
  unfold Clause.isNil; infer_instance

/-- Embedding of `Clause.__neg__`: the set of unit clauses, one per
literal of the clause, each holding that literal's complement. -/
def Clause.negUnits (c : Clause) : Finset Clause :=
  c.image (fun l => ({-l} : Clause))

/-- Embedding of `Clause.__hash__`: the sum of the member literals'
hashes (a Python `sum` over the frozenset; integer addition is
commutative, so the unspecified iteration order does not matter and the
`Finset.sum` is the exact value). -/
def Clause.hashPy (c : Clause) : Int :=
  c.sum LogicLiteral.hashPy

/-- Splitting a string on runs of spaces (model of Python's
`str.split()` on the program's inputs, which separate tokens by
spaces); `cur` accumulates the current token reversed. -/
def tokenizeAux : List Char → List Char → List String
  | cur, [] => if cur = [] then [] else [⟨cur.reverse⟩]
  | cur, c :: cs =>
      if c = ' ' then
        (if cur = [] then tokenizeAux [] cs else ⟨cur.reverse⟩ :: tokenizeAux [] cs)
      else tokenizeAux (c :: cur) cs

/-- Tokenisation used by `Clause.parse`. -/
def tokenize (s : String) : List String := tokenizeAux [] s.data

/-- Embedding of the body of `Clause.parse` after tokenisation: drop the
disjunction token (`'v'` compared lower-cased), parse each remaining
token as a literal, and collect the results into a set. -/
def Clause.parseTokens (tokens : List String) : Clause :=
  ((tokens.filter (fun t => lowerStr t ≠ "v")).map LogicLiteral.parse).toFinset

/-- Embedding of `Clause.parse`. -/
def Clause.parse (s : String) : Clause :=
  Clause.parseTokens (tokenize s)

/-- Clause-level content of
`RefutationResolution._resolve_possible_tautologies`:
`Clause.remove_complementary_literals(left | right)`. -/
def resolveClausePT (A B : Clause) : Clause :=
  removeComplementaryLiterals (A ∪ B)

/-- Clause-level content of `RefutationResolution._resolve_non_tautologies`:
`left & right | Clause.remove_complementary_literals(left ^ right)`
(`^` is frozenset symmetric difference). -/
def resolveClauseNT (A B : Clause) : Clause :=
  (A ∩ B) ∪ removeComplementaryLiterals (symmDiff A B)

/-- Resolution rule described by the spec's sentence for the
tautology-preserving variant, modelled from the spec's words: for every
ordered pair `(x, y)` with `x ∈ A`, `y ∈ B`, drop both when `x` is
exactly the negation of `y`, otherwise keep both.  So a literal `x` of
`A` is dropped exactly when its negation occurs in `B`, and a literal
`y` of `B` exactly when its negation occurs in `A`. -/
def specPairwiseResolve (A B : Clause) : Clause :=
  A.filter (fun x => -x ∉ B) ∪ B.filter (fun y => -y ∉ A)

/-- Embedding of the two `SimplificationStrategy` implementations
(src/exercise2/algorithms/simplification_strategies.py) as a closed
enumeration. -/
inductive SimpStrategy where
  | redundantClauseRemoval
  | insignificantClauseRemoval
deriving DecidableEq, Repr

/-- Embedding of `SimplificationStrategy.simplify` for each strategy.
`RedundantClauseRemoval` walks all unordered pairs of distinct set
elements and marks the superset of every subset pair for removal, then
subtracts the marked clauses: net effect, a clause is removed iff some
distinct clause of the input is a subset of it.  `InsignificantClauseRemoval`
yields the non-tautologies. -/
def SimpStrategy.simplify : SimpStrategy → Finset Clause → Finset Clause
  | .redundantClauseRemoval, S => S.filter (fun b => ¬ ∃ a ∈ S, a ≠ b ∧ a ⊆ b)
  | .insignificantClauseRemoval, S => S.filter (fun c => ¬ c.isTautology)

/-- Embedding of `ControlStrategy.simplify_resolution_clauses`'s loop:
apply each configured strategy in sequence. -/
def simplifyAll (strats : List SimpStrategy) (S : Finset Clause) : Finset Clause :=
  strats.foldl (fun S st => st.simplify S) S

/-- Embedding of `ControlStrategy.removes_insignificant_clauses`: some
configured strategy is an `InsignificantClauseRemoval`. -/
def removesInsignificantClauses (strats : List SimpStrategy) : Bool :=
  strats.any (fun st => st = .insignificantClauseRemoval)

/-- Embedding of `Resolvent` (src/exercise2/data_structures/resolvent.py)
as used by the control-strategy state: a clause together with the two
parent clauses recorded by `set_parents`.  Parent objects are compared
by the inherited clause equality everywhere in
`control_strategies.py`, so only the parents' literal sets are kept
here (the full parent objects are modelled separately for the proof
reconstruction, see `PClause`). -/
structure Resolvent where
  clause : Clause
  leftParent : Clause
  rightParent : Clause
deriving DecidableEq

/-- Embedding of `Resolvent.is_new_knowledge`: the resolvent's literal
set is a strict subset of the union of its parents' literal sets. -/
def Resolvent.isNewKnowledge (r : Resolvent) : Prop :=
  r.clause ⊂ r.leftParent ∪ r.rightParent

instance (r : Resolvent) : Decidable r.isNewKnowledge := by
  unfold Resolvent.isNewKnowledge; infer_instance

/-- Clause sets of a set of resolvents (`set(self._acquired_knowledge)`
viewed through clause equality). -/
def clausesOf (A : Finset Resolvent) : Finset Clause :=
  A.image Resolvent.clause

/-- Embedding of `set(-self._goal)`: the negated-goal unit clauses. -/
def negatedGoal (g : Clause) : Finset Clause := g.negUnits

/-- Embedding of the mutable `ControlStrategy` state
(src/exercise2/algorithms/control_strategies.py).  Python's sets of
`Resolvent` objects are keyed by clause equality; the operations below
make that keying explicit. -/
structure CtrlState where
  premises : Finset Clause
  goal : Clause
  resolutionClauses : Finset Clause
  temporaryKnowledge : Finset Resolvent
  acquiredKnowledge : Finset Resolvent
deriving DecidableEq

/-- Embedding of `ControlStrategy.add_premise`: insert and report
success. -/
def addPremise (s : CtrlState) (c : Clause) : Bool × CtrlState :=
  (true, { s with premises := insert c s.premises })

/-- Embedding of the recursive part of
`ControlStrategy._remove_dependent_knowledge` for the calls after the
first: the knowledge set `K` is a frozenset of resolvents.  Each member
whose clause is (still) a premise is removed from the premises (the
source's `if clause in self._premises` branch — note it is then *not*
removed from `acquired_knowledge`); each other member present in the
acquired knowledge is removed from it.  Then the resolvents of the
remaining acquired knowledge having a parent among `K`'s clauses form
the next knowledge set, and the recursion continues while it is
non-empty.  The size guard encodes the termination argument (every call
site passes a non-empty `K` drawn from the current acquired knowledge,
so each round removes at least one element from the premises or the
acquired knowledge); on such calls the guard never cuts the recursion
short. -/
def rdkPremStep (P : Finset Clause) (K : Finset Resolvent) : Finset Clause :=
  P.filter (fun c => ¬ ∃ r ∈ K, r.clause = c)

/-- Removal pass over the acquired knowledge: a member of `K` is removed
from it unless its clause is (still) a premise — in that case the
source's `if clause in self._premises` branch removed it from the
premises instead (see `rdkPremStep`) and left the acquired knowledge
entry in place. -/
def rdkAcqStep (P : Finset Clause) (A K : Finset Resolvent) : Finset Resolvent :=
  A.filter (fun a => ¬ (a ∈ K ∧ a.clause ∉ P))

/-- Next knowledge frontier: the remaining acquired resolvents having a
parent among the clauses of `K` (the source's `filter` over
`self._acquired_knowledge` with `right_parent in knowledge or
left_parent in knowledge`, membership being clause equality). -/
def rdkNextStep (P : Finset Clause) (A K : Finset Resolvent) : Finset Resolvent :=
  (rdkAcqStep P A K).filter (fun r =>
    (∃ k ∈ K, k.clause = r.leftParent) ∨ ∃ k ∈ K, k.clause = r.rightParent)

def removeDependentKnowledge (P : Finset Clause) (A K : Finset Resolvent) :
    Finset Clause × Finset Resolvent :=
  if h : (rdkNextStep P A K).Nonempty ∧
      (rdkPremStep P K).card + (rdkAcqStep P A K).card < P.card + A.card then
    removeDependentKnowledge (rdkPremStep P K) (rdkAcqStep P A K) (rdkNextStep P A K)
  else (rdkPremStep P K, rdkAcqStep P A K)
termination_by P.card + A.card
decreasing_by exact h.2

/-- Premises and acquired knowledge after the cascade started by
removing premise `c`: the top-level `_remove_dependent_knowledge({c})`
call removes `c` from the premises (its `if clause in self._premises`
branch) and, when some acquired resolvent has `c` as a parent, recurses
over the dependent knowledge. -/
def removePremiseCascade (s : CtrlState) (c : Clause) :
    Finset Clause × Finset Resolvent :=
  if (s.acquiredKnowledge.filter
      (fun r => r.leftParent = c ∨ r.rightParent = c)).Nonempty then
    removeDependentKnowledge (s.premises.erase c) s.acquiredKnowledge
      (s.acquiredKnowledge.filter (fun r => r.leftParent = c ∨ r.rightParent = c))
  else (s.premises.erase c, s.acquiredKnowledge)

/-- Embedding of `ControlStrategy.remove_premise`: fail when the clause
is not a premise; otherwise remove it and cascade over the dependent
acquired knowledge. -/
def removePremise (s : CtrlState) (c : Clause) : Bool × CtrlState :=
  if c ∈ s.premises then
    (true,
      { s with
          premises := (removePremiseCascade s c).1
          acquiredKnowledge := (removePremiseCascade s c).2 })
  else (false, s)

/-- Embedding of `ControlStrategy.prepare_for_resolution`: optionally
replace the goal, optionally clear the acquired knowledge, clear the
temporary knowledge, rebuild the resolution clauses from premises,
acquired knowledge and negated goal, and simplify them. -/
def prepareForResolution (strats : List SimpStrategy) (s : CtrlState)
    (goal? : Option Clause) (keep : Bool) : CtrlState :=
  let g := goal?.getD s.goal
  let A := if keep then s.acquiredKnowledge else ∅
  { premises := s.premises
    goal := g
    resolutionClauses := simplifyAll strats (s.premises ∪ clausesOf A ∪ negatedGoal g)
    temporaryKnowledge := ∅
    acquiredKnowledge := A }

/-- Embedding of `ControlStrategy.found_any_new_knowledge`: the
temporary knowledge is not a subset (via clause equality) of the
resolution clauses. -/
def foundAnyNewKnowledge (s : CtrlState) : Prop :=
  ¬ clausesOf s.temporaryKnowledge ⊆ s.resolutionClauses

instance (s : CtrlState) : Decidable (foundAnyNewKnowledge s) := by
  unfold foundAnyNewKnowledge; infer_instance

/-- Embedding of `ControlStrategy.acquire_temporary_knowledge` for a
single resolvent: a Python set add, keyed by clause equality (adding a
resolvent whose clause is already present keeps the existing member). -/
def acquireTemporaryKnowledge (s : CtrlState) (r : Resolvent) : CtrlState :=
  { s with temporaryKnowledge :=
      if r.clause ∈ clausesOf s.temporaryKnowledge then s.temporaryKnowledge
      else insert r s.temporaryKnowledge }

/-- Embedding of `ControlStrategy.consolidate_knowledge`: union the
temporary knowledge into the resolution clauses, simplify, then commit
into the acquired knowledge every temporary resolvent whose clause
survived in the resolution clauses (a Python set add — resolvents whose
clause is already present in the acquired knowledge are skipped),
finally clear the temporary knowledge. -/
def consolidateKnowledge (strats : List SimpStrategy) (s : CtrlState) : CtrlState :=
  let R := simplifyAll strats (s.resolutionClauses ∪ clausesOf s.temporaryKnowledge)
  { s with
    resolutionClauses := R
    acquiredKnowledge := s.acquiredKnowledge ∪
      s.temporaryKnowledge.filter (fun t =>
        t.clause ∈ R ∧ t.clause ∉ clausesOf s.acquiredKnowledge)
    temporaryKnowledge := ∅ }

/-- Embedding of `ControlStrategy.simplify_resolution_clauses`. -/
def simplifyResolutionClauses (strats : List SimpStrategy) (s : CtrlState) : CtrlState :=
  { s with resolutionClauses := simplifyAll strats s.resolutionClauses }

/-- Embedding of `SupportSetStrategy.support_set`:
`resolution_clauses & set(acquired_knowledge) | resolution_clauses & set(-goal)`. -/
def supportSet (s : CtrlState) : Finset Clause :=
  s.resolutionClauses ∩ clausesOf s.acquiredKnowledge ∪
    s.resolutionClauses ∩ negatedGoal s.goal

/-- Support set as the spec phrases it:
`resolution_clauses ∩ (acquired_knowledge ∪ negated_goal)`. -/
def supportSetSpec (s : CtrlState) : Finset Clause :=
  s.resolutionClauses ∩ (clausesOf s.acquiredKnowledge ∪ negatedGoal s.goal)

/-- Embedding of `SupportSetStrategy.get_new_clause_pairs` as a set of
ordered pairs: the cross product of the non-support clauses with the
support set, together with the pairs of two distinct support clauses.
Python's `itertools.combinations(support_set, 2)` emits each unordered
pair once in an unspecified orientation; the model keeps both
orientations, which leaves the unordered pair content identical. -/
def getNewClausePairs (s : CtrlState) : Finset (Clause × Clause) :=
  ((s.resolutionClauses \ supportSet s) ×ˢ supportSet s) ∪
    (supportSet s ×ˢ supportSet s).filter (fun p => p.1 ≠ p.2)

/-- Dependency of a resolvent on a clause `c` through chains of acquired
resolvents, as described for `remove_premise`: a resolvent of `A`
depends on `c` when one of its parents is `c`, or one of its parents is
the clause of a dependent resolvent of `A`. -/
inductive DependsOn (A : Finset Resolvent) (c : Clause) : Resolvent → Prop where
  | base (r : Resolvent) : r ∈ A → (r.leftParent = c ∨ r.rightParent = c) → DependsOn A c r
  | step (r d : Resolvent) : r ∈ A → DependsOn A c d →
      (r.leftParent = d.clause ∨ r.rightParent = d.clause) → DependsOn A c r

/-- Reachability of a resolvent from a knowledge frontier `K` through
parents inside `A`; the internal form of `DependsOn` used to
characterise the cascade `removeDependentKnowledge`. -/
inductive ReachesFrom (A K : Finset Resolvent) : Resolvent → Prop where
  | base (r : Resolvent) : r ∈ K → ReachesFrom A K r
  | step (r d : Resolvent) : r ∈ A → ReachesFrom A K d →
      (r.leftParent = d.clause ∨ r.rightParent = d.clause) → ReachesFrom A K r

/-- Embedding of the run-time clause objects flowing through
`RefutationResolution.resolve`: either a plain `Clause` (premise or
negated-goal unit) or a `Resolvent` object carrying the two parent
objects set by `set_parents`.  The proof reconstruction
(`_get_dependent_knowledge`) branches on `isinstance(clause, Resolvent)`
and recurses into the parent objects, so the full object structure is
kept here. -/
inductive PClause where
  | base (c : Clause)
  | res (c : Clause) (lp rp : PClause)
deriving DecidableEq

/-- Literal set of a run-time clause object. -/
def PClause.clauseOf : PClause → Clause
  | .base c => c
  | .res c _ _ => c

/-- Embedding of `Resolvent.is_new_knowledge` on run-time objects: the
resolvent is a strict subset of the union of its parents.  The source
only ever calls it on `Resolvent` objects; on a plain clause it is
`False` here. -/
def PClause.isNewKnowledge : PClause → Prop
  | .base _ => False
  | .res c l r => c ⊂ l.clauseOf ∪ r.clauseOf

instance (p : PClause) : Decidable p.isNewKnowledge := by
  cases p <;> (unfold PClause.isNewKnowledge; infer_instance)

/-- Membership of a clause in a Python set of run-time clause objects
(keyed by clause equality). -/
def memClauseL (c : Clause) (L : List PClause) : Bool :=
  L.any (fun p => decide (p.clauseOf = c))

/-- Insertion into a Python set of run-time clause objects: when an
object with the same clause is already present it is kept and the new
object discarded (CPython keeps the existing set element). -/
def pyInsertP (L : List PClause) (p : PClause) : List PClause :=
  if memClauseL p.clauseOf L then L else L ++ [p]

/-- Embedding of `SimplificationStrategy.simplify` on the run-time
working set, strategy by strategy (same content as
`SimpStrategy.simplify`, lifted to clause objects; distinct elements of
the Python set have distinct clauses, so object inequality in the
`combinations` loop is clause inequality). -/
def simplifyListP (strats : List SimpStrategy) (R0 : List PClause) : List PClause :=
  strats.foldl (fun R st =>
    match st with
    | .redundantClauseRemoval =>
        R.filter (fun p => !(R.any (fun q =>
          decide (q.clauseOf ≠ p.clauseOf ∧ q.clauseOf ⊆ p.clauseOf))))
    | .insignificantClauseRemoval =>
        R.filter (fun p => !(decide p.clauseOf.isTautology))) R0

/-- Embedding of the state owned by a `ControlStrategy` as seen by the
`resolve` loop, at the level of run-time objects.  `premises` and
`goalLits` are admissible enumerations of the corresponding Python
sets; `acquired` and `resolutionList` are Python sets of clause
objects, keyed by clause equality. -/
structure ProverState where
  premises : List Clause
  goalLits : List LogicLiteral
  acquired : List PClause
  resolutionList : List PClause
deriving DecidableEq

/-- Goal clause of a prover state. -/
def ProverState.goalClause (st : ProverState) : Clause := st.goalLits.toFinset

/-- Negated-goal unit clauses, in the goal's enumeration order
(embedding of `set(-self._goal)` / `tuple(-self._goal)`). -/
def negGoalUnitsOf (gl : List LogicLiteral) : List Clause :=
  gl.map (fun l => ({-l} : Clause))

/-- The two control strategies of the source as a closed enumeration. -/
inductive ControlChoice where
  | saturationByLevels
  | supportSetStrategy
deriving DecidableEq, Repr

/-- Configuration fixed at `RefutationResolution.__init__`: the control
strategy and the configured simplification strategies (which also
select the resolution rule via `removes_insignificant_clauses`). -/
structure ProverConfig where
  ctl : ControlChoice
  strats : List SimpStrategy
deriving DecidableEq, Repr

/-- Embedding of the chosen `_resolve_clauses` rule applied to a pair of
run-time objects: builds a `Resolvent` whose parents are exactly the
pair members (`set_parents(left_clause, right_clause)`). -/
def resolveRule (cfg : ProverConfig) (x y : PClause) : PClause :=
  if removesInsignificantClauses cfg.strats then
    .res (resolveClauseNT x.clauseOf y.clauseOf) x y
  else
    .res (resolveClausePT x.clauseOf y.clauseOf) x y

/-- All unordered pairs of distinct elements of a list, in list order
(embedding of `itertools.combinations(_, 2)` for one admissible
iteration order of the underlying set). -/
def pairsAux : List PClause → List (PClause × PClause)
  | [] => []
  | x :: xs => xs.map (fun y => (x, y)) ++ pairsAux xs

/-- Support test on a run-time object: its clause belongs to the
acquired knowledge or to the negated goal (the two intersections of
`SupportSetStrategy.support_set` restricted to a member of
`resolution_clauses`). -/
def isSupport (st : ProverState) (p : PClause) : Bool :=
  st.acquired.any (fun a => decide (a.clauseOf = p.clauseOf)) ||
    (negGoalUnitsOf st.goalLits).any (fun u => decide (u = p.clauseOf))

/-- Embedding of `get_new_clause_pairs` for the configured control
strategy, as one admissible enumeration order. -/
def newClausePairsList (cfg : ProverConfig) (st : ProverState) :
    List (PClause × PClause) :=
  match cfg.ctl with
  | .saturationByLevels => pairsAux st.resolutionList
  | .supportSetStrategy =>
      let S := st.resolutionList.filter (fun p => isSupport st p)
      let NS := st.resolutionList.filter (fun p => !(isSupport st p))
      (NS.map (fun x => S.map (fun y => (x, y)))).flatten ++ pairsAux S

/-- Outcome of one traversal of the `for clause_pair in ...` loop. -/
inductive PassResult where
  | foundNil (fin : PClause)
  | finished (temp : List PClause)
deriving DecidableEq

/-- Embedding of one traversal of the inner `for` loop of `resolve`:
resolve each pair in order; on the NIL clause stop at once with the
final resolvent; otherwise accumulate the resolvents that are new
knowledge into the temporary knowledge (a clause-keyed set add). -/
def runPass (cfg : ProverConfig) :
    List (PClause × PClause) → List PClause → PassResult
  | [], temp => .finished temp
  | (x, y) :: rest, temp =>
      let r := resolveRule cfg x y
      if r.clauseOf = ∅ then .foundNil r
      else if r.isNewKnowledge then runPass cfg rest (pyInsertP temp r)
      else runPass cfg rest temp

/-- Embedding of `ControlStrategy.consolidate_knowledge` at the level of
run-time objects: union the temporary knowledge into the working set
(existing objects win), simplify, and commit the temporary resolvents
whose clause survived into the acquired knowledge. -/
def consolidateP (cfg : ProverConfig) (st : ProverState) (temp : List PClause) :
    ProverState :=
  let R := simplifyListP cfg.strats (temp.foldl pyInsertP st.resolutionList)
  { st with
    resolutionList := R
    acquired := temp.foldl
      (fun A t => if memClauseL t.clauseOf R then pyInsertP A t else A) st.acquired }

/-- Embedding of `RefutationResolution._get_dependent_knowledge`:
post-order ancestry walk of a run-time object — dependents of the left
parent, then of the right parent, then the object itself; a plain
clause contributes nothing. -/
def getDependentKnowledge : PClause → List PClause
  | .base _ => []
  | .res c l r => getDependentKnowledge l ++ getDependentKnowledge r ++ [.res c l r]

/-- Embedding of `ResolutionReport` as built by
`RefutationResolution._write_report`: the premises, the goal, the
negated-goal units, the dependent knowledge (ancestry walk on success,
the acquired knowledge on failure) and the verdict. -/
structure ResolutionReport where
  premisesList : List Clause
  goal : Clause
  negatedGoalUnits : List Clause
  dependentKnowledge : List PClause
  goalIsTrue : Bool
deriving DecidableEq

/-- Embedding of `RefutationResolution._write_report`. -/
def writeReport (st : ProverState) (fin? : Option PClause) : ResolutionReport :=
  match fin? with
  | some fin =>
      ⟨st.premises, st.goalClause, negGoalUnitsOf st.goalLits,
        getDependentKnowledge fin, true⟩
  | none =>
      ⟨st.premises, st.goalClause, negGoalUnitsOf st.goalLits, st.acquired, false⟩

/-- Embedding of the `while True` loop of `resolve`, with explicit fuel:
`none` means the loop did not finish within `fuel` iterations.  Each
iteration runs the pair loop; on NIL it reports success, otherwise if no
temporary resolvent is new relative to the working set
(`found_any_new_knowledge` is false) it reports failure, else it
consolidates and repeats. -/
def resolutionLoop (cfg : ProverConfig) :
    Nat → ProverState → Option (ResolutionReport × ProverState)
  | 0, _ => none
  | n + 1, st =>
      match runPass cfg (newClausePairsList cfg st) [] with
      | .foundNil fin => some (writeReport st (some fin), st)
      | .finished temp =>
          if temp.all (fun t => memClauseL t.clauseOf st.resolutionList) then
            some (writeReport st none, st)
          else resolutionLoop cfg n (consolidateP cfg st temp)

/-- Embedding of `ControlStrategy.prepare_for_resolution` at the level
of run-time objects: optionally replace the goal, optionally clear the
acquired knowledge, rebuild the working set from premises, acquired
knowledge and negated-goal units, and simplify it. -/
def prepareP (cfg : ProverConfig) (st : ProverState)
    (goal? : Option (List LogicLiteral)) (keep : Bool) : ProverState :=
  let gl := goal?.getD st.goalLits
  let A := if keep then st.acquired else []
  let R0 := ((st.premises.map PClause.base) ++ A ++
    ((negGoalUnitsOf gl).map PClause.base)).foldl pyInsertP []
  { premises := st.premises
    goalLits := gl
    acquired := A
    resolutionList := simplifyListP cfg.strats R0 }

/-- Embedding of `RefutationResolution.resolve(goal, keep_acquired_knowledge)`
with explicit fuel for the saturation loop; returns the report together
with the final strategy state (the strategy outlives the call). -/
def resolve (cfg : ProverConfig) (st : ProverState)
    (goal? : Option (List LogicLiteral)) (keep : Bool) (fuel : Nat) :
    Option (ResolutionReport × ProverState) :=
  resolutionLoop cfg fuel (prepareP cfg st goal? keep)

/-- Divergence of a `resolve` call: no amount of fuel completes the
saturation loop, i.e. the source's `while True` loop never returns. -/
def resolveDiverges (cfg : ProverConfig) (st : ProverState)
    (goal? : Option (List LogicLiteral)) (keep : Bool) : Prop :=
  ∀ n, resolve cfg st goal? keep n = none

/-- Parent objects of a run-time clause object. -/
def parentsOfP : PClause → List PClause
  | .base _ => []
  | .res _ l r => [l, r]

/-- Check of the claimed topological ordering of a report, walking the
dependent knowledge left to right: each entry's parents must be
premises, negated-goal units, or have the clause of an earlier entry of
the dependent knowledge (that is, each parent occurs earlier in the
combined sequence premises ++ negated-goal units ++ dependent
knowledge, occurrence being Python clause equality). -/
def topoAux (P NG : List Clause) : List PClause → List PClause → Bool
  | _, [] => true
  | acc, n :: rest =>
      ((parentsOfP n).all (fun q =>
        decide (q.clauseOf ∈ P) || decide (q.clauseOf ∈ NG) ||
          acc.any (fun m => decide (m.clauseOf = q.clauseOf)))) &&
        topoAux P NG (acc ++ [n]) rest

/-- Topological-order check of a whole report. -/
def topoOk (rep : ResolutionReport) : Bool :=
  topoAux rep.premisesList rep.negatedGoalUnits [] rep.dependentKnowledge

/-- Groundedness of a run-time clause object relative to a premise list
and a negated-goal unit list: every plain-clause leaf of its ancestry
is a premise or a negated-goal unit. -/
inductive GroundedIn (P NG : List Clause) : PClause → Prop where
  | base (c : Clause) : c ∈ P ∨ c ∈ NG → GroundedIn P NG (.base c)
  | res (c : Clause) (l r : PClause) : GroundedIn P NG l → GroundedIn P NG r →
      GroundedIn P NG (.res c l r)

/-- Concrete unit clause `{a}` used by example states. -/
def exClauseA : Clause := {⟨"a", false⟩}

/-- Concrete negated-goal unit clause `{~g}` used by example states. -/
def exClauseNG : Clause := {⟨"g", true⟩}

/-- Concrete control-strategy state used to instantiate hypotheses of
the control-strategy theorems: one premise `{a}`, goal `{g}`, working
set `{{a}, {~g}}` as left by a preparation, no temporary or acquired
knowledge. -/
def exCtrlState : CtrlState :=
  ⟨{exClauseA}, {⟨"g", false⟩}, {exClauseA, exClauseNG}, ∅, ∅⟩

/-- Concrete clauses and resolvents for the knowledge-base
counterexamples. -/
def exClauseQ : Clause := {⟨"q", false⟩}

def exClauseXY : Clause := {⟨"x", false⟩, ⟨"y", false⟩}

def exClauseX : Clause := {⟨"x", false⟩}

/-- Committed resolvent with clause `{x, y}` (parents `{p, x, y}` and
`{~p}`). -/
def exResXY : Resolvent :=
  ⟨exClauseXY, {⟨"p", false⟩, ⟨"x", false⟩, ⟨"y", false⟩}, {⟨"p", true⟩}⟩

/-- Temporary resolvent with clause `{x}` (parents `{x, y}` and
`{~y, x}`). -/
def exResX : Resolvent :=
  ⟨exClauseX, exClauseXY, {⟨"y", true⟩, ⟨"x", false⟩}⟩

/-- Control-strategy state about to consolidate: the committed
resolvent `{x, y}` is in the working set (the invariant holds), and the
temporary resolvent `{x}` subsumes it. -/
def exC3State : CtrlState :=
  ⟨{exClauseQ}, {⟨"g", false⟩}, {exClauseQ, exClauseXY}, {exResX}, {exResXY}⟩

/-- Concrete clause `{~a, b}` (a premise implying `b` from `a`). -/
def exClauseNAB : Clause := {⟨"a", true⟩, ⟨"b", false⟩}

/-- Concrete unit clause `{b}`. -/
def exClauseB : Clause := {⟨"b", false⟩}

/-- Resolvent `{b}` derived from premises `{a}` and `{~a, b}`. -/
def exResB : Resolvent := ⟨exClauseB, exClauseA, exClauseNAB⟩

/-- Control-strategy state where the acquired resolvent `{b}` depends on
premise `{a}` while the clause `{b}` is itself also a premise. -/
def exC5State : CtrlState :=
  ⟨{exClauseA, exClauseNAB, exClauseB}, {⟨"g", false⟩}, ∅, ∅, {exResB}⟩

/-- Control-strategy state where the acquired resolvent `{b}` depends on
premise `{a}` and no acquired clause is a premise. -/
def exC5StateW : CtrlState :=
  ⟨{exClauseA, exClauseNAB}, {⟨"g", false⟩}, ∅, ∅, {exResB}⟩

/-- Clause set of a run-time working set, via clause equality. -/
def clausesLF (L : List PClause) : Finset Clause :=
  (L.map PClause.clauseOf).toFinset

/-- All literals occurring in a run-time working set. -/
def litsOfR (L : List PClause) : Finset LogicLiteral :=
  (L.map PClause.clauseOf).foldr (· ∪ ·) ∅

/-- Premise `{p, a, b}` of the divergence counterexample. -/
def exClauseP1 : Clause := {⟨"p", false⟩, ⟨"a", false⟩, ⟨"b", false⟩}

/-- Premise `{~p, c, d}` of the divergence counterexample. -/
def exClauseP2 : Clause := {⟨"p", true⟩, ⟨"c", false⟩, ⟨"d", false⟩}

/-- Premise `{a, c}` of the divergence counterexample: it subsumes the
resolvent of the other two premises. -/
def exClauseP3 : Clause := {⟨"a", false⟩, ⟨"c", false⟩}

/-- Clause `{a, b, c, d}` — the resolvent of `{p, a, b}` and
`{~p, c, d}`. -/
def exClauseABCD : Clause :=
  {⟨"a", false⟩, ⟨"b", false⟩, ⟨"c", false⟩, ⟨"d", false⟩}

/-- Saturation-by-levels control with subsumption removal configured. -/
def exSatRedundantConfig : ProverConfig :=
  ⟨.saturationByLevels, [.redundantClauseRemoval]⟩

/-- Start state of the divergence counterexample: premises `{p, a, b}`,
`{~p, c, d}`, `{a, c}` and goal `{g}`. -/
def exDivStart : ProverState :=
  ⟨[exClauseP1, exClauseP2, exClauseP3], [⟨"g", false⟩], [], []⟩

/-- The prepared state of the divergence counterexample — also the
state reproduced verbatim by every consolidation round. -/
def exDivState : ProverState :=
  ⟨[exClauseP1, exClauseP2, exClauseP3], [⟨"g", false⟩], [],
    [.base exClauseP1, .base exClauseP2, .base exClauseP3, .base exClauseNG]⟩

/-- The resolvent re-derived (and re-simplified away) in every round of
the divergence counterexample. -/
def exDivResolvent : PClause :=
  .res (resolveClausePT exClauseP1 exClauseP2) (.base exClauseP1) (.base exClauseP2)

/-- Clause `{a, b}` — the single premise of the proof-reconstruction
counterexample. -/
def exClauseAB : Clause := {⟨"a", false⟩, ⟨"b", false⟩}

/-- Saturation-by-levels control with no simplification configured. -/
def exNoSimpConfig : ProverConfig := ⟨.saturationByLevels, []⟩

/-- Start state of the proof-reconstruction counterexample: premise
`{a, b}`, goal `{b}`. -/
def exC9Start : ProverState := ⟨[exClauseAB], [⟨"b", false⟩], [], []⟩

/-- The report of the second `resolve` call of the proof-reconstruction
counterexample: first resolve goal `{b}` (which fails but leaves the
acquired resolvent `{a}` with parents `{a, b}` and `{~b}`), then
resolve goal `{a}` with `keep_acquired_knowledge = true`, which
succeeds through the kept resolvent. -/
def c9SecondReport : Option ResolutionReport :=
  match resolve exNoSimpConfig exC9Start none false 3 with
  | some (_, st1) =>
      (resolve exNoSimpConfig st1 (some [⟨"a", false⟩]) true 3).map (fun pr => pr.1)
  | none => none

/-- Unit clause `{~a}`. -/
def exClauseNA : Clause := {⟨"a", true⟩}

/-- Start state for the successful fresh refutation used as a witness:
premise `{a}`, goal `{a}`. -/
def exC9WStart : ProverState := ⟨[exClauseA], [⟨"a", false⟩], [], []⟩

/-- The report of that successful refutation. -/
def exC9WReport : ResolutionReport :=
  ⟨[exClauseA], {⟨"a", false⟩}, [exClauseNA],
    [.res ∅ (.base exClauseA) (.base exClauseNA)], true⟩

/-- The strategy state right after that successful refutation. -/
def exC9WState : ProverState :=
  ⟨[exClauseA], [⟨"a", false⟩], [], [.base exClauseA, .base exClauseNA]⟩

/-- Proof device for analysing `removeComplementaryLoop`: the working
set after the literals of `P` have been processed — a literal of `S` is
gone exactly when its complement is in `S` and its pair has been
touched. -/
def removalState (S P : Finset LogicLiteral) : Finset LogicLiteral :=
  S.filter (fun z => ¬ (-z ∈ S ∧ (z ∈ P ∨ -z ∈ P)))

theorem LogicLiteral.neg_invol (l : LogicLiteral) : -(-l) = l := by
  cases l with
  | mk v n => simp [Neg.neg, LogicLiteral.negate]

theorem LogicLiteral.neg_eq_iff (l m : LogicLiteral) : -l = m ↔ l = -m := by
  constructor
  · rintro rfl; exact (LogicLiteral.neg_invol l).symm
  · rintro rfl; exact LogicLiteral.neg_invol m

theorem removalState_empty (S : Finset LogicLiteral) : removalState S ∅ = S := by
  simp [removalState]

theorem LogicLiteral.neg_ne (l : LogicLiteral) : -l ≠ l := by
  cases l with
  | mk v n => simp [Neg.neg, LogicLiteral.negate]

theorem removeComplementaryLoop_invariant (S : Finset LogicLiteral) :
    ∀ (L : List LogicLiteral) (P : Finset LogicLiteral), (∀ l ∈ L, l ∈ S) →
      removeComplementaryLoop L (removalState S P) =
        removalState S (P ∪ L.toFinset) := by
  intro L
  induction L with
  | nil => intro P _; simp [removeComplementaryLoop]
  | cons l ls ih =>
      intro P hsub
      have hl : l ∈ S := hsub l (List.mem_cons_self l ls)
      have hls : ∀ x ∈ ls, x ∈ S := fun x hx => hsub x (List.mem_cons_of_mem l hx)
      have hmem : -l ∈ removalState S P ↔ (-l ∈ S ∧ l ∉ P ∧ -l ∉ P) := by
        simp only [removalState, Finset.mem_filter, LogicLiteral.neg_invol]
        tauto
      have hunion : P ∪ (l :: ls).toFinset = insert l P ∪ ls.toFinset := by
        ext z
        simp only [List.toFinset_cons, Finset.mem_union, Finset.mem_insert]
        tauto
      rw [removeComplementaryLoop]
      by_cases hc : -l ∈ removalState S P
      · rw [if_pos hc]
        obtain ⟨hnegS, hlP, hnlP⟩ := hmem.mp hc
        have hstep : ((removalState S P).erase l).erase (-l) =
            removalState S (insert l P) := by
          ext z
          by_cases hz1 : z = l
          · subst hz1
            simp [removalState, Finset.mem_erase, LogicLiteral.neg_ne, hl, hnegS]
          · by_cases hz2 : z = -l
            · subst hz2
              simp [removalState, Finset.mem_erase, LogicLiteral.neg_invol, hl]
            · have hz3 : -z ≠ l := fun hx => hz2 ((LogicLiteral.neg_eq_iff z l).mp hx)
              simp only [removalState, Finset.mem_erase, Finset.mem_filter,
                Finset.mem_insert, hz1, hz2, hz3, false_or]
              tauto
        rw [hstep, ih (insert l P) hls, hunion]
      · rw [if_neg hc]
        have hfail : ¬ (-l ∈ S ∧ l ∉ P ∧ -l ∉ P) := fun hx => hc (hmem.mpr hx)
        have hstep : removalState S P = removalState S (insert l P) := by
          ext z
          by_cases hz1 : z = l
          · subst hz1
            simp only [removalState, Finset.mem_filter, Finset.mem_insert, true_or,
              true_and, hl]
            tauto
          · by_cases hz2 : z = -l
            · subst hz2
              simp only [removalState, Finset.mem_filter, Finset.mem_insert,
                LogicLiteral.neg_invol, hl]
              tauto
            · have hz3 : -z ≠ l := fun hx => hz2 ((LogicLiteral.neg_eq_iff z l).mp hx)
              simp only [removalState, Finset.mem_filter, Finset.mem_insert, hz1, hz3,
                false_or]
        rw [hstep, ih (insert l P) hls, hunion]

/-- Any iteration order of the input frozenset makes the source's
removal loop compute exactly the complementary-pair filter. -/
theorem removeComplementaryLoop_eq (S : Finset LogicLiteral)
    (L : List LogicLiteral) (hL : L.toFinset = S) :
    removeComplementaryLoop L S = removeComplementaryLiterals S := by
  have h0 : removeComplementaryLoop L (removalState S ∅) =
      removalState S (∅ ∪ L.toFinset) :=
    removeComplementaryLoop_invariant S L ∅ (by
      intro l hl
      rw [← hL]
      exact List.mem_toFinset.mpr hl)
  rw [removalState_empty] at h0
  rw [h0, hL]
  unfold removalState removeComplementaryLiterals
  apply Finset.filter_congr
  intro z hz
  simp [hz]

theorem removeComplementaryLiterals_subset (S : Finset LogicLiteral) :
    removeComplementaryLiterals S ⊆ S :=
  Finset.filter_subset _ _

theorem resolveClausePT_subset (A B : Clause) : resolveClausePT A B ⊆ A ∪ B :=
  removeComplementaryLiterals_subset _

theorem resolveClauseNT_subset (A B : Clause) : resolveClauseNT A B ⊆ A ∪ B := by
  unfold resolveClauseNT
  intro z hz
  rcases Finset.mem_union.mp hz with hz | hz
  · exact Finset.mem_union.mpr (Or.inl (Finset.mem_of_mem_inter_left hz))
  · have hz2 := removeComplementaryLiterals_subset _ hz
    exact symmDiff_le_sup (a := A) (b := B) hz2

theorem resolveClauseNT_not_tautology (A B : Clause)
    (hA : ¬ A.isTautology) (hB : ¬ B.isTautology) :
    ¬ (resolveClauseNT A B).isTautology := by
  rintro ⟨l, hl, hnl⟩
  unfold resolveClauseNT removeComplementaryLiterals at hl hnl
  rw [Finset.mem_union, Finset.mem_inter, Finset.mem_filter] at hl hnl
  rw [LogicLiteral.neg_invol] at hnl
  rcases hl with ⟨hlA, hlB⟩ | ⟨hlsd, hlneg⟩
  · rcases hnl with ⟨hnA, hnB⟩ | ⟨hnsd, _⟩
    · exact hA ⟨l, hlA, hnA⟩
    · rcases Finset.mem_symmDiff.mp hnsd with ⟨h1, _⟩ | ⟨h1, _⟩
      · exact hA ⟨l, hlA, h1⟩
      · exact hB ⟨l, hlB, h1⟩
  · rcases hnl with ⟨hnA, hnB⟩ | ⟨hnsd, _⟩
    · rcases Finset.mem_symmDiff.mp hlsd with ⟨h1, _⟩ | ⟨h1, _⟩
      · exact hA ⟨l, h1, hnA⟩
      · exact hB ⟨l, h1, hnB⟩
    · exact hlneg hnsd

/-- Claim C2, counterexample: for `A = {p, ~p}` and `B = {q}` the
tautology-preserving rule of the code returns `{q}` — the complementary
pair internal to `A` is dropped as well — while the claimed pairwise
rule keeps `p` (its negation does not occur in `B`), so the two
disagree and the claimed "kept" part fails on the code. -/
theorem c2_pairwise_rule_counterexample :
    resolveClausePT {⟨"p", false⟩, ⟨"p", true⟩} {⟨"q", false⟩} ≠
      specPairwiseResolve {⟨"p", false⟩, ⟨"p", true⟩} {⟨"q", false⟩} ∧
    (⟨"p", false⟩ : LogicLiteral) ∈ ({⟨"p", false⟩, ⟨"p", true⟩} : Clause) ∧
    -(⟨"p", false⟩ : LogicLiteral) ∉ ({⟨"q", false⟩} : Clause) ∧
    (⟨"p", false⟩ : LogicLiteral) ∉
      resolveClausePT {⟨"p", false⟩, ⟨"p", true⟩} {⟨"q", false⟩} := by
  refine ⟨by decide, by decide, by decide, by decide⟩

/-- Claim C2, amended: for every pair of clauses `A` and `B`,
`_resolve_possible_tautologies` returns the clause obtained by dropping
from the union `A ∪ B` every literal whose exact negation also occurs
anywhere in `A ∪ B` — regardless of which side either literal came from
— and keeping the rest; in particular a literal of `A` whose negation
occurs only inside `A` itself is dropped too.  The statement covers
every iteration order of the union. -/
theorem c2_pairwise_rule_amended (A B : Clause) (L : List LogicLiteral)
    (hL : L.toFinset = A ∪ B) :
    removeComplementaryLoop L (A ∪ B) =
      (A ∪ B).filter (fun z => -z ∉ A ∪ B) ∧
    resolveClausePT A B = (A ∪ B).filter (fun z => -z ∉ A ∪ B) := by
  constructor
  · exact removeComplementaryLoop_eq (A ∪ B) L hL
  · rfl

theorem c2_pairwise_rule_amended_witness :
    ([⟨"p", false⟩, ⟨"p", true⟩, ⟨"q", false⟩] :
        List LogicLiteral).toFinset =
      ({⟨"p", false⟩, ⟨"p", true⟩} : Clause) ∪ {⟨"q", false⟩} ∧
    resolveClausePT {⟨"p", false⟩, ⟨"p", true⟩} {⟨"q", false⟩} =
      (({⟨"p", false⟩, ⟨"p", true⟩} : Clause) ∪ {⟨"q", false⟩}).filter
        (fun z => -z ∉ ({⟨"p", false⟩, ⟨"p", true⟩} : Clause) ∪ {⟨"q", false⟩}) :=
  ⟨by decide,
    (c2_pairwise_rule_amended {⟨"p", false⟩, ⟨"p", true⟩} {⟨"q", false⟩}
      [⟨"p", false⟩, ⟨"p", true⟩, ⟨"q", false⟩] (by decide)).2⟩

/-- Claim C4: literal equality is case-insensitive on the variable and
sensitive to polarity exactly as claimed, but the hash is *not*: the
source hashes the raw variable string, so the equal literals `A` and
`a` receive different hashes, violating the claim (and Python's own
requirement that equal objects hash equally).  The theorem shows the
equality characterisation and evaluates both literals at the failing
input. -/
theorem c4_literal_eq_hash :
    (∀ l1 l2 : LogicLiteral,
      l1.eqPy l2 ↔ (lowerStr l1.var = lowerStr l2.var ∧ l1.negated = l2.negated)) ∧
    LogicLiteral.eqPy ⟨"A", false⟩ ⟨"a", false⟩ ∧
    LogicLiteral.hashPy ⟨"A", false⟩ ≠ LogicLiteral.hashPy ⟨"a", false⟩ :=
  ⟨fun _ _ => Iff.rfl, by decide, by decide⟩

/-- Claim C8: clause parsing is permutation-invariant — token lists that
are permutations of one another parse to equal clauses — and the clause
hash is the order-independent sum of the member literals' hashes, so
equal parses have equal hashes. -/
theorem c8_permutation_invariance (t1 t2 : List String) (h : t1.Perm t2) :
    Clause.parseTokens t1 = Clause.parseTokens t2 ∧
    (Clause.parseTokens t1).hashPy = (Clause.parseTokens t2).hashPy ∧
    (Clause.parseTokens t1).hashPy =
      (Clause.parseTokens t1).sum LogicLiteral.hashPy := by
  have hperm : ((t1.filter (fun t => lowerStr t ≠ "v")).map LogicLiteral.parse).Perm
      ((t2.filter (fun t => lowerStr t ≠ "v")).map LogicLiteral.parse) :=
    (h.filter _).map _
  have heq : Clause.parseTokens t1 = Clause.parseTokens t2 :=
    List.toFinset_eq_of_perm _ _ hperm
  exact ⟨heq, by rw [heq], rfl⟩

theorem c8_permutation_invariance_witness :
    (["a", "v", "b"] : List String).Perm ["b", "v", "a"] ∧
    Clause.parseTokens ["a", "v", "b"] = Clause.parseTokens ["b", "v", "a"] :=
  ⟨by decide, (c8_permutation_invariance ["a", "v", "b"] ["b", "v", "a"] (by decide)).1⟩

theorem SimpStrategy.simplify_subset (st : SimpStrategy) (S : Finset Clause) :
    st.simplify S ⊆ S := by
  cases st <;> (unfold SimpStrategy.simplify; exact Finset.filter_subset _ _)

theorem simplifyAll_subset (strats : List SimpStrategy) (S : Finset Clause) :
    simplifyAll strats S ⊆ S := by
  induction strats generalizing S with
  | nil => exact fun _ h => h
  | cons st rest ih =>
      exact (ih (st.simplify S)).trans (st.simplify_subset S)

theorem rdkPremStep_subset (P : Finset Clause) (K : Finset Resolvent) :
    rdkPremStep P K ⊆ P :=
  Finset.filter_subset _ _

theorem rdkAcqStep_subset (P : Finset Clause) (A K : Finset Resolvent) :
    rdkAcqStep P A K ⊆ A :=
  Finset.filter_subset _ _

theorem removeDependentKnowledge_subset (P : Finset Clause) (A K : Finset Resolvent) :
    (removeDependentKnowledge P A K).1 ⊆ P ∧
      (removeDependentKnowledge P A K).2 ⊆ A := by
  induction P, A, K using removeDependentKnowledge.induct with
  | case1 P A K h ih =>
      rw [removeDependentKnowledge]
      simp only [dif_pos h]
      exact ⟨ih.1.trans (rdkPremStep_subset _ _), ih.2.trans (rdkAcqStep_subset _ _ _)⟩
  | case2 P A K h =>
      rw [removeDependentKnowledge]
      simp only [dif_neg h]
      exact ⟨rdkPremStep_subset _ _, rdkAcqStep_subset _ _ _⟩

/-- Claim C6: removing a clause that is not currently a premise returns
`succeeded = false` and leaves the whole control-strategy state
unchanged, and `succeeded = false` holds exactly when the clause is not
a premise. -/
theorem c6_remove_absent_premise (s : CtrlState) (c : Clause) :
    (c ∉ s.premises → removePremise s c = (false, s)) ∧
    ((removePremise s c).1 = false ↔ c ∉ s.premises) := by
  constructor
  · intro h
    simp [removePremise, h]
  · by_cases h : c ∈ s.premises <;> simp [removePremise, h]

theorem c6_remove_absent_premise_witness :
    (({⟨"b", false⟩} : Clause) ∉
      (⟨{({⟨"a", false⟩} : Clause)}, {⟨"g", false⟩}, ∅, ∅, ∅⟩ : CtrlState).premises) ∧
    removePremise (⟨{({⟨"a", false⟩} : Clause)}, {⟨"g", false⟩}, ∅, ∅, ∅⟩ : CtrlState)
        {⟨"b", false⟩} =
      (false, (⟨{({⟨"a", false⟩} : Clause)}, {⟨"g", false⟩}, ∅, ∅, ∅⟩ : CtrlState)) :=
  ⟨by decide,
    (c6_remove_absent_premise
      (⟨{({⟨"a", false⟩} : Clause)}, {⟨"g", false⟩}, ∅, ∅, ∅⟩ : CtrlState)
      {⟨"b", false⟩}).1 (by decide)⟩

theorem removePremiseCascade_subset (s : CtrlState) (c : Clause) :
    (removePremiseCascade s c).1 ⊆ s.premises.erase c ∧
      (removePremiseCascade s c).2 ⊆ s.acquiredKnowledge := by
  unfold removePremiseCascade
  by_cases hD : (s.acquiredKnowledge.filter
      (fun r => r.leftParent = c ∨ r.rightParent = c)).Nonempty
  · simp only [if_pos hD]
    exact removeDependentKnowledge_subset _ _ _
  · simp only [if_neg hD]
    exact ⟨fun x hx => hx, fun x hx => hx⟩

theorem removePremise_of_mem (s : CtrlState) (c : Clause) (h : c ∈ s.premises) :
    (removePremise s c).1 = true ∧
      (removePremise s c).2.premises ⊆ s.premises.erase c := by
  unfold removePremise
  simp only [if_pos h]
  exact ⟨by trivial, (removePremiseCascade_subset s c).1⟩

theorem removePremise_frame (s : CtrlState) (c : Clause) :
    (removePremise s c).2.resolutionClauses = s.resolutionClauses ∧
    (removePremise s c).2.temporaryKnowledge = s.temporaryKnowledge ∧
    (removePremise s c).2.goal = s.goal ∧
    (removePremise s c).2.premises ⊆ s.premises ∧
    (removePremise s c).2.acquiredKnowledge ⊆ s.acquiredKnowledge := by
  unfold removePremise
  by_cases h : c ∈ s.premises
  · simp only [if_pos h]
    refine ⟨by trivial, by trivial, by trivial, ?_, (removePremiseCascade_subset s c).2⟩
    exact (removePremiseCascade_subset s c).1.trans (Finset.erase_subset _ _)
  · simp only [if_neg h]
    exact ⟨by trivial, by trivial, by trivial, fun x hx => hx, fun x hx => hx⟩

/-- Claim C10: `remove_premise` never touches the resolution clauses,
the temporary knowledge, or the goal; even on success it only shrinks
the premises and the acquired knowledge.  A retracted premise therefore
remains in the current working set, and disappears from it only once
the next `prepare_for_resolution` rebuilds the resolution clauses — the
final conjunct shows a fresh rebuild (any strategy list, goal kept,
acquired knowledge not kept) no longer contains the removed premise
whenever it is not also a negated-goal unit. -/
theorem c10_remove_premise_frame (s : CtrlState) (c : Clause) :
    (removePremise s c).2.resolutionClauses = s.resolutionClauses ∧
    (removePremise s c).2.temporaryKnowledge = s.temporaryKnowledge ∧
    (removePremise s c).2.goal = s.goal ∧
    (removePremise s c).2.premises ⊆ s.premises ∧
    (removePremise s c).2.acquiredKnowledge ⊆ s.acquiredKnowledge ∧
    (c ∈ s.resolutionClauses → c ∈ (removePremise s c).2.resolutionClauses) ∧
    (c ∈ s.premises → c ∉ negatedGoal s.goal → ∀ strats : List SimpStrategy,
      c ∉ (prepareForResolution strats (removePremise s c).2 none false).resolutionClauses) := by
  obtain ⟨h1, h2, h3, h4, h5⟩ := removePremise_frame s c
  refine ⟨h1, h2, h3, h4, h5, fun h => h1 ▸ h, ?_⟩
  intro hc hng strats hmem
  have hmem2 : c ∈ (removePremise s c).2.premises ∪ clausesOf (∅ : Finset Resolvent) ∪
      negatedGoal ((removePremise s c).2.goal) := by
    have := simplifyAll_subset strats
      ((removePremise s c).2.premises ∪ clausesOf (∅ : Finset Resolvent) ∪
        negatedGoal ((removePremise s c).2.goal))
    apply this
    simpa [prepareForResolution] using hmem
  rw [Finset.mem_union, Finset.mem_union] at hmem2
  rcases hmem2 with (hp | hp) | hp
  · exact Finset.not_mem_erase c s.premises ((removePremise_of_mem s c hc).2 hp)
  · simp [clausesOf] at hp
  · rw [h3] at hp
    exact hng hp

theorem c10_remove_premise_frame_witness :
    (exClauseA ∈ exCtrlState.premises) ∧
    (exClauseA ∉ negatedGoal exCtrlState.goal) ∧
    (exClauseA ∉
      (prepareForResolution []
        (removePremise exCtrlState exClauseA).2 none false).resolutionClauses) :=
  ⟨by decide, by decide,
    (c10_remove_premise_frame exCtrlState exClauseA).2.2.2.2.2.2
      (by decide) (by decide) []⟩

/-- Claim C7: the support set computed by the code equals the spec's
`resolution_clauses ∩ (acquired_knowledge ∪ negated_goal)`; a pair of
clauses is generated (in either orientation) exactly when one clause is
a non-support resolution clause and the other a support clause, or both
are distinct support clauses; consequently no generated pair has both
components outside the support set. -/
theorem c7_support_set_pairs (s : CtrlState) :
    supportSet s = supportSetSpec s ∧
    (∀ x y : Clause,
      ((x, y) ∈ getNewClausePairs s ∨ (y, x) ∈ getNewClausePairs s) ↔
        ((x ∈ s.resolutionClauses \ supportSet s ∧ y ∈ supportSet s) ∨
         (y ∈ s.resolutionClauses \ supportSet s ∧ x ∈ supportSet s) ∨
         (x ∈ supportSet s ∧ y ∈ supportSet s ∧ x ≠ y))) ∧
    (∀ p : Clause × Clause, p ∈ getNewClausePairs s →
      p.1 ∈ supportSet s ∨ p.2 ∈ supportSet s) := by
  refine ⟨?_, ?_, ?_⟩
  · unfold supportSet supportSetSpec
    exact (Finset.inter_union_distrib_left _ _ _).symm
  · intro x y
    unfold getNewClausePairs
    simp only [Finset.mem_union, Finset.mem_product, Finset.mem_filter, Finset.mem_sdiff]
    constructor
    · rintro (h | h) <;> tauto
    · rintro (h | h | h) <;> tauto
  · rintro ⟨x, y⟩ hp
    unfold getNewClausePairs at hp
    simp only [Finset.mem_union, Finset.mem_product, Finset.mem_filter] at hp
    rcases hp with ⟨_, h2⟩ | ⟨⟨h1, _⟩, _⟩
    · exact Or.inr h2
    · exact Or.inl h1

theorem c7_support_set_pairs_witness :
    ((exClauseA, exClauseNG) ∈ getNewClausePairs exCtrlState) ∧
    (exClauseA ∈ supportSet exCtrlState ∨ exClauseNG ∈ supportSet exCtrlState) :=
  ⟨by decide,
    (c7_support_set_pairs exCtrlState).2.2 (exClauseA, exClauseNG) (by decide)⟩

/-- Claim C3, counterexample: with `RedundantClauseRemoval` configured,
`consolidate_knowledge` can break the invariant "every member of
acquired_knowledge is a member of resolution_clauses" (membership being
Python clause equality): in `exC3State` the invariant holds, the
consolidated temporary resolvent `{x}` subsumes the committed resolvent
`{x, y}`, simplification removes `{x, y}` from the resolution clauses,
and nothing drops it from the acquired knowledge. -/
theorem c3_invariant_counterexample :
    clausesOf exC3State.acquiredKnowledge ⊆ exC3State.resolutionClauses ∧
    ¬ (clausesOf (consolidateKnowledge [.redundantClauseRemoval]
          exC3State).acquiredKnowledge ⊆
        (consolidateKnowledge [.redundantClauseRemoval]
          exC3State).resolutionClauses) :=
  ⟨by decide, by decide⟩

/-- Claim C3, amended: with no simplification strategy configured the
invariant "every member of acquired_knowledge is a member of
resolution_clauses" is preserved by every ControlStrategy operation
(and prepare_for_resolution even establishes it unconditionally); the
counterexample shows the invariant is *not* preserved once
`RedundantClauseRemoval` is configured, because simplification can
remove a committed resolvent from the resolution clauses while nothing
drops it from the acquired knowledge. -/
theorem c3_invariant_preserved (s : CtrlState)
    (h : clausesOf s.acquiredKnowledge ⊆ s.resolutionClauses) :
    (∀ c, clausesOf (addPremise s c).2.acquiredKnowledge ⊆
      (addPremise s c).2.resolutionClauses) ∧
    (∀ c, clausesOf (removePremise s c).2.acquiredKnowledge ⊆
      (removePremise s c).2.resolutionClauses) ∧
    (∀ (goal? : Option Clause) (keep : Bool),
      clausesOf (prepareForResolution [] s goal? keep).acquiredKnowledge ⊆
        (prepareForResolution [] s goal? keep).resolutionClauses) ∧
    (∀ r, clausesOf (acquireTemporaryKnowledge s r).acquiredKnowledge ⊆
      (acquireTemporaryKnowledge s r).resolutionClauses) ∧
    (clausesOf (consolidateKnowledge [] s).acquiredKnowledge ⊆
      (consolidateKnowledge [] s).resolutionClauses) ∧
    (clausesOf (simplifyResolutionClauses [] s).acquiredKnowledge ⊆
      (simplifyResolutionClauses [] s).resolutionClauses) := by
  refine ⟨?_, ?_, ?_, ?_, ?_, ?_⟩
  · intro c
    simpa [addPremise] using h
  · intro c
    obtain ⟨h1, _, _, _, h5⟩ := removePremise_frame s c
    rw [h1]
    exact (Finset.image_subset_image h5).trans h
  · intro goal? keep
    unfold prepareForResolution simplifyAll
    simp only [List.foldl_nil]
    intro x hx
    exact Finset.mem_union_left _ (Finset.mem_union_right _ hx)
  · intro r
    simpa [acquireTemporaryKnowledge] using h
  · unfold consolidateKnowledge simplifyAll
    simp only [List.foldl_nil]
    intro c hc
    rw [clausesOf, Finset.image_union] at hc
    rcases Finset.mem_union.mp hc with hc | hc
    · exact Finset.mem_union_left _ (h hc)
    · obtain ⟨t, ht, rfl⟩ := Finset.mem_image.mp hc
      exact (Finset.mem_filter.mp ht).2.1
  · simpa [simplifyResolutionClauses, simplifyAll] using h

theorem c3_invariant_preserved_witness :
    (clausesOf exCtrlState.acquiredKnowledge ⊆ exCtrlState.resolutionClauses) ∧
    (clausesOf (consolidateKnowledge [] exCtrlState).acquiredKnowledge ⊆
      (consolidateKnowledge [] exCtrlState).resolutionClauses) :=
  ⟨by decide, (c3_invariant_preserved exCtrlState (by decide)).2.2.2.2.1⟩

theorem reachesFrom_mem (A K : Finset Resolvent) (hKA : K ⊆ A) :
    ∀ x, ReachesFrom A K x → x ∈ A := by
  intro x h
  induction h with
  | base r hr => exact hKA hr
  | step r d hr _ _ _ => exact hr

theorem reachesFrom_mem_of_no_next (A K : Finset Resolvent)
    (hnext : ((A.filter (fun a => a ∉ K)).filter (fun r =>
      (∃ k ∈ K, k.clause = r.leftParent) ∨
        ∃ k ∈ K, k.clause = r.rightParent)) = ∅) :
    ∀ x, ReachesFrom A K x → x ∈ K := by
  intro x hx
  induction hx with
  | base r hr => exact hr
  | step r d hr _ hpar ih =>
      by_cases hrK : r ∈ K
      · exact hrK
      · exfalso
        have hrA : r ∈ A.filter (fun a => a ∉ K) :=
          Finset.mem_filter.mpr ⟨hr, hrK⟩
        have hrF : r ∈ (A.filter (fun a => a ∉ K)).filter (fun r =>
            (∃ k ∈ K, k.clause = r.leftParent) ∨
              ∃ k ∈ K, k.clause = r.rightParent) := by
          refine Finset.mem_filter.mpr ⟨hrA, ?_⟩
          rcases hpar with hpar | hpar
          · exact Or.inl ⟨d, ih, hpar.symm⟩
          · exact Or.inr ⟨d, ih, hpar.symm⟩
        rw [hnext] at hrF
        exact absurd hrF (Finset.not_mem_empty r)

theorem reachesFrom_shift (A K : Finset Resolvent) (hKA : K ⊆ A) (x : Resolvent) :
    ReachesFrom A K x ↔
      (x ∈ K ∨ ReachesFrom (A.filter (fun a => a ∉ K))
        ((A.filter (fun a => a ∉ K)).filter (fun r =>
          (∃ k ∈ K, k.clause = r.leftParent) ∨
            ∃ k ∈ K, k.clause = r.rightParent)) x) := by
  constructor
  · intro h
    induction h with
    | base r hr => exact Or.inl hr
    | step r d hr hd hpar ih =>
        by_cases hrK : r ∈ K
        · exact Or.inl hrK
        · have hrA : r ∈ A.filter (fun a => a ∉ K) :=
            Finset.mem_filter.mpr ⟨hr, hrK⟩
          rcases ih with hdK | hdR
          · refine Or.inr (ReachesFrom.base r (Finset.mem_filter.mpr ⟨hrA, ?_⟩))
            rcases hpar with hpar | hpar
            · exact Or.inl ⟨d, hdK, hpar.symm⟩
            · exact Or.inr ⟨d, hdK, hpar.symm⟩
          · exact Or.inr (ReachesFrom.step r d hrA hdR hpar)
  · rintro (h | h)
    · exact ReachesFrom.base x h
    · induction h with
      | base r hr =>
          have hr2 := Finset.mem_filter.mp hr
          have hrA := Finset.mem_filter.mp hr2.1
          rcases hr2.2 with ⟨k, hk, hkc⟩ | ⟨k, hk, hkc⟩
          · exact ReachesFrom.step r k hrA.1 (ReachesFrom.base k hk) (Or.inl hkc.symm)
          · exact ReachesFrom.step r k hrA.1 (ReachesFrom.base k hk) (Or.inr hkc.symm)
      | step r d hr _ hpar ih =>
          exact ReachesFrom.step r d (Finset.mem_filter.mp hr).1 ih hpar

theorem removeDependentKnowledge_spec :
    ∀ (P : Finset Clause) (A K : Finset Resolvent), K ⊆ A →
      (∀ a ∈ A, a.clause ∉ P) →
      ((removeDependentKnowledge P A K).1 = P ∧
        ∀ x, x ∈ (removeDependentKnowledge P A K).2 ↔
          (x ∈ A ∧ ¬ ReachesFrom A K x)) := by
  intro P A K
  induction P, A, K using removeDependentKnowledge.induct with
  | case1 P A K h ih =>
      intro hKA hdisj
      have hP' : rdkPremStep P K = P := by
        unfold rdkPremStep
        apply Finset.filter_true_of_mem
        rintro c hc ⟨r, hrK, rfl⟩
        exact hdisj r (hKA hrK) hc
      have hA' : rdkAcqStep P A K = A.filter (fun a => a ∉ K) := by
        unfold rdkAcqStep
        apply Finset.filter_congr
        intro a ha
        simp [hdisj a ha]
      have hK' : rdkNextStep P A K =
          (A.filter (fun a => a ∉ K)).filter (fun r =>
            (∃ k ∈ K, k.clause = r.leftParent) ∨
              ∃ k ∈ K, k.clause = r.rightParent) := by
        unfold rdkNextStep
        rw [hA']
      have hKA2 : rdkNextStep P A K ⊆ rdkAcqStep P A K :=
        Finset.filter_subset _ _
      have hdisj2 : ∀ a ∈ rdkAcqStep P A K, a.clause ∉ rdkPremStep P K := by
        intro a ha
        rw [hP']
        exact hdisj a (rdkAcqStep_subset P A K ha)
      obtain ⟨ih1, ih2⟩ := ih hKA2 hdisj2
      rw [removeDependentKnowledge, dif_pos h]
      refine ⟨ih1.trans hP', ?_⟩
      intro x
      rw [ih2 x, hA', hK']
      constructor
      · rintro ⟨hxA, hnr⟩
        have hx2 := Finset.mem_filter.mp hxA
        refine ⟨hx2.1, ?_⟩
        intro hr
        rcases (reachesFrom_shift A K hKA x).mp hr with hr2 | hr2
        · exact hx2.2 hr2
        · exact hnr hr2
      · rintro ⟨hxA, hnr⟩
        have hxK : x ∉ K := fun hk => hnr (ReachesFrom.base x hk)
        refine ⟨Finset.mem_filter.mpr ⟨hxA, hxK⟩, ?_⟩
        intro hr
        exact hnr ((reachesFrom_shift A K hKA x).mpr (Or.inr hr))
  | case2 P A K h =>
      intro hKA hdisj
      have hP' : rdkPremStep P K = P := by
        unfold rdkPremStep
        apply Finset.filter_true_of_mem
        rintro c hc ⟨r, hrK, rfl⟩
        exact hdisj r (hKA hrK) hc
      have hA' : rdkAcqStep P A K = A.filter (fun a => a ∉ K) := by
        unfold rdkAcqStep
        apply Finset.filter_congr
        intro a ha
        simp [hdisj a ha]
      have hKempty : rdkNextStep P A K = ∅ := by
        by_cases hK : K.Nonempty
        · by_contra hne
          apply h
          constructor
          · exact Finset.nonempty_of_ne_empty hne
          · obtain ⟨k, hk⟩ := hK
            have hkA : k ∈ A := hKA hk
            have hss : rdkAcqStep P A K ⊂ A := by
              rw [hA']
              refine (Finset.ssubset_iff_of_subset (Finset.filter_subset _ _)).mpr ?_
              exact ⟨k, hkA, by simp [hk]⟩
            have hcard : (rdkAcqStep P A K).card < A.card := Finset.card_lt_card hss
            have hcard2 : (rdkPremStep P K).card = P.card := by rw [hP']
            omega
        · rw [Finset.not_nonempty_iff_eq_empty] at hK
          subst hK
          unfold rdkNextStep
          simp
      have hnext : ((A.filter (fun a => a ∉ K)).filter (fun r =>
          (∃ k ∈ K, k.clause = r.leftParent) ∨
            ∃ k ∈ K, k.clause = r.rightParent)) = ∅ := by
        unfold rdkNextStep at hKempty
        rw [hA'] at hKempty
        exact hKempty
      rw [removeDependentKnowledge, dif_neg h, hP']
      refine ⟨rfl, ?_⟩
      intro x
      rw [hA']
      constructor
      · intro hx
        have hx2 := Finset.mem_filter.mp hx
        exact ⟨hx2.1, fun hr => hx2.2 (reachesFrom_mem_of_no_next A K hnext x hr)⟩
      · rintro ⟨hxA, hnr⟩
        exact Finset.mem_filter.mpr ⟨hxA, fun hk => hnr (ReachesFrom.base x hk)⟩

/-- Claim C5, counterexample: in `exC5State` the premise `{a}` is
removed and the report succeeds, the acquired resolvent `{b}` depends
directly on `{a}` (its left parent), yet it *remains* in the acquired
knowledge — the cascade's `if clause in self._premises` branch removed
the unrelated premise `{b}` (clause-equal to the resolvent) from the
premises instead of removing the resolvent from the acquired
knowledge. -/
theorem c5_cascade_counterexample :
    (removePremise exC5State exClauseA).1 = true ∧
    DependsOn exC5State.acquiredKnowledge exClauseA exResB ∧
    exResB ∈ (removePremise exC5State exClauseA).2.acquiredKnowledge ∧
    (removePremise exC5State exClauseA).2.premises = {exClauseNAB} := by
  have hcas : removePremiseCascade exC5State exClauseA =
      ({exClauseNAB}, {exResB}) := by
    unfold removePremiseCascade
    rw [if_pos (by decide), removeDependentKnowledge, dif_neg (by decide)]
    decide
  have hrp : removePremise exC5State exClauseA =
      (true, ⟨{exClauseNAB}, {⟨"g", false⟩}, ∅, ∅, {exResB}⟩) := by
    unfold removePremise
    rw [if_pos (by decide), hcas]
    rfl
  rw [hrp]
  exact ⟨rfl, DependsOn.base exResB (by decide) (Or.inl (by decide)),
    by decide, by decide⟩

/-- Claim C5, amended: provided no acquired resolvent's clause
coincides with a premise clause, `remove_premise` on a current premise
succeeds, removes exactly that clause from the premises, and removes
from the acquired knowledge exactly the resolvents depending on the
removed clause transitively through chains of acquired resolvents; the
counterexample shows that when a dependent resolvent's clause is also a
premise, the cascade removes that premise instead and the dependent
resolvent stays. -/
theorem c5_remove_premise_cascade (s : CtrlState) (c : Clause)
    (h1 : c ∈ s.premises)
    (h2 : ∀ r ∈ s.acquiredKnowledge, r.clause ∉ s.premises) :
    (removePremise s c).1 = true ∧
    (removePremise s c).2.premises = s.premises.erase c ∧
    (∀ r, r ∈ (removePremise s c).2.acquiredKnowledge ↔
      (r ∈ s.acquiredKnowledge ∧ ¬ DependsOn s.acquiredKnowledge c r)) := by
  have hdep : ∀ r, ReachesFrom s.acquiredKnowledge
      (s.acquiredKnowledge.filter (fun r => r.leftParent = c ∨ r.rightParent = c)) r ↔
      DependsOn s.acquiredKnowledge c r := by
    intro r
    constructor
    · intro h
      induction h with
      | base r hr =>
          have hr2 := Finset.mem_filter.mp hr
          exact DependsOn.base r hr2.1 hr2.2
      | step r d hr _ hpar ih => exact DependsOn.step r d hr ih hpar
    · intro h
      induction h with
      | base r hr hpar => exact ReachesFrom.base r (Finset.mem_filter.mpr ⟨hr, hpar⟩)
      | step r d hr _ hpar ih => exact ReachesFrom.step r d hr ih hpar
  unfold removePremise
  simp only [if_pos h1]
  unfold removePremiseCascade
  by_cases hD : (s.acquiredKnowledge.filter
      (fun r => r.leftParent = c ∨ r.rightParent = c)).Nonempty
  · simp only [if_pos hD]
    have hdisj : ∀ a ∈ s.acquiredKnowledge, a.clause ∉ s.premises.erase c :=
      fun a ha hmem => h2 a ha (Finset.mem_of_mem_erase hmem)
    obtain ⟨hs1, hs2⟩ := removeDependentKnowledge_spec (s.premises.erase c)
      s.acquiredKnowledge
      (s.acquiredKnowledge.filter (fun r => r.leftParent = c ∨ r.rightParent = c))
      (Finset.filter_subset _ _) hdisj
    refine ⟨by trivial, hs1, ?_⟩
    intro r
    rw [hs2 r, hdep r]
  · simp only [if_neg hD]
    have hnodep : ∀ r, DependsOn s.acquiredKnowledge c r → False := by
      intro r h
      induction h with
      | base r hr hpar => exact hD ⟨r, Finset.mem_filter.mpr ⟨hr, hpar⟩⟩
      | step r d _ _ _ ih => exact ih
    refine ⟨by trivial, by trivial, ?_⟩
    intro r
    exact ⟨fun hr => ⟨hr, hnodep r⟩, fun h => h.1⟩

theorem c5_remove_premise_cascade_witness :
    (exClauseA ∈ exC5StateW.premises) ∧
    (∀ r ∈ exC5StateW.acquiredKnowledge, r.clause ∉ exC5StateW.premises) ∧
    ((removePremise exC5StateW exClauseA).1 = true ∧
      (removePremise exC5StateW exClauseA).2.premises =
        exC5StateW.premises.erase exClauseA) :=
  ⟨by decide, by decide,
    (c5_remove_premise_cascade exC5StateW exClauseA (by decide) (by decide)).1,
    (c5_remove_premise_cascade exC5StateW exClauseA (by decide) (by decide)).2.1⟩

set_option maxHeartbeats 2000000 in
theorem exDivState_pass :
    runPass exSatRedundantConfig
      (newClausePairsList exSatRedundantConfig exDivState) [] =
      .finished [exDivResolvent] := by decide

set_option maxHeartbeats 2000000 in
theorem exDivState_consolidate :
    consolidateP exSatRedundantConfig exDivState [exDivResolvent] = exDivState ∧
    ([exDivResolvent].all (fun t =>
      memClauseL t.clauseOf exDivState.resolutionList)) = false := by
  refine ⟨by decide, by decide⟩

theorem exDivState_loop (n : Nat) :
    resolutionLoop exSatRedundantConfig n exDivState = none := by
  induction n with
  | zero => rfl
  | succ n ih =>
      rw [resolutionLoop, exDivState_pass]
      simp only [exDivState_consolidate.2, Bool.false_eq_true, if_false]
      rw [exDivState_consolidate.1]
      exact ih

/-- Claim C1, counterexample: with the SaturationByLevels control
strategy and the RedundantClauseRemoval simplification strategy, the
`resolve` loop diverges on premises `{p, a, b}`, `{~p, c, d}`, `{a, c}`
with goal `{g}`: each round re-derives the resolvent `{a, b, c, d}`
from the first two premises, the fixpoint test sees it as new (it is
not in the working set), and consolidation removes it again because
`{a, c}` subsumes it, reproducing the previous state verbatim — the
working set does not grow monotonically once simplification can remove
clauses. -/
theorem c1_termination_counterexample :
    resolveDiverges exSatRedundantConfig exDivStart none false := by
  intro n
  unfold resolve
  have hprep : prepareP exSatRedundantConfig exDivStart none false = exDivState := by
    decide
  rw [hprep]
  exact exDivState_loop n

theorem memClauseL_iff (c : Clause) (L : List PClause) :
    memClauseL c L = true ↔ c ∈ clausesLF L := by
  unfold memClauseL clausesLF
  simp only [List.any_eq_true, decide_eq_true_eq, List.mem_toFinset, List.mem_map]

theorem clausesLF_pyInsertP (L : List PClause) (p : PClause) :
    clausesLF (pyInsertP L p) = insert p.clauseOf (clausesLF L) := by
  unfold pyInsertP
  by_cases h : memClauseL p.clauseOf L = true
  · rw [if_pos h, Finset.insert_eq_self.mpr ((memClauseL_iff _ _).mp h)]
  · rw [if_neg h]
    unfold clausesLF
    rw [List.map_append, List.toFinset_append]
    simp only [List.map_cons, List.map_nil, List.toFinset_cons, List.toFinset_nil]
    rw [Finset.union_comm]
    ext x
    simp [or_comm]

theorem mem_pyInsertP (L : List PClause) (p x : PClause) :
    x ∈ pyInsertP L p → x ∈ L ∨ x = p := by
  unfold pyInsertP
  by_cases h : memClauseL p.clauseOf L = true
  · rw [if_pos h]
    exact Or.inl
  · rw [if_neg h]
    intro hx
    rcases List.mem_append.mp hx with hx | hx
    · exact Or.inl hx
    · exact Or.inr (List.mem_singleton.mp hx)

theorem clausesLF_foldl (temp : List PClause) :
    ∀ R, clausesLF (temp.foldl pyInsertP R) = clausesLF R ∪ clausesLF temp := by
  induction temp with
  | nil =>
      intro R
      simp [clausesLF]
  | cons t ts ih =>
      intro R
      rw [List.foldl_cons, ih, clausesLF_pyInsertP]
      have hcons : clausesLF (t :: ts) = insert t.clauseOf (clausesLF ts) := by
        simp [clausesLF]
      rw [hcons, Finset.insert_union, Finset.union_insert]

theorem mem_foldl_pyInsertP (temp : List PClause) :
    ∀ R x, x ∈ temp.foldl pyInsertP R → x ∈ R ∨ x ∈ temp := by
  induction temp with
  | nil =>
      intro R x hx
      exact Or.inl hx
  | cons t ts ih =>
      intro R x hx
      rw [List.foldl_cons] at hx
      rcases ih _ x hx with hx2 | hx2
      · rcases mem_pyInsertP R t x hx2 with hx3 | hx3
        · exact Or.inl hx3
        · exact Or.inr (hx3 ▸ List.mem_cons_self t ts)
      · exact Or.inr (List.mem_cons_of_mem t hx2)

theorem simplifyListP_no_redundant (strats : List SimpStrategy)
    (h : SimpStrategy.redundantClauseRemoval ∉ strats) :
    ∀ R, simplifyListP strats R =
      if removesInsignificantClauses strats then
        R.filter (fun p => !(decide p.clauseOf.isTautology))
      else R := by
  induction strats with
  | nil =>
      intro R
      rfl
  | cons st rest ih =>
      intro R
      have hst : st = SimpStrategy.insignificantClauseRemoval := by
        cases st
        · exact absurd (List.mem_cons_self _ _) h
        · rfl
      subst hst
      have hrest : SimpStrategy.redundantClauseRemoval ∉ rest :=
        fun hc => h (List.mem_cons_of_mem _ hc)
      have hstep : simplifyListP (SimpStrategy.insignificantClauseRemoval :: rest) R =
          simplifyListP rest (R.filter (fun p => !(decide p.clauseOf.isTautology))) := rfl
      rw [hstep, ih hrest]
      have hrem : removesInsignificantClauses
          (SimpStrategy.insignificantClauseRemoval :: rest) = true := by
        simp [removesInsignificantClauses]
      rw [hrem]
      by_cases h2 : removesInsignificantClauses rest
      · rw [if_pos h2, if_pos rfl, List.filter_filter]
        congr 1
        funext p
        rw [Bool.and_self]
      · rw [if_neg h2, if_pos rfl]

theorem mem_simplifyListP (strats : List SimpStrategy) :
    ∀ R p, p ∈ simplifyListP strats R → p ∈ R := by
  induction strats with
  | nil =>
      intro R p hp
      exact hp
  | cons st rest ih =>
      intro R p hp
      cases st
      · have hp2 := ih _ p hp
        exact List.mem_of_mem_filter hp2
      · have hp2 := ih _ p hp
        exact List.mem_of_mem_filter hp2

theorem pairsAux_mem : ∀ (L : List PClause) (pq : PClause × PClause),
    pq ∈ pairsAux L → pq.1 ∈ L ∧ pq.2 ∈ L := by
  intro L
  induction L with
  | nil =>
      intro pq hpq
      exact absurd hpq (List.not_mem_nil pq)
  | cons x xs ih =>
      intro pq hpq
      rw [pairsAux] at hpq
      rcases List.mem_append.mp hpq with h | h
      · obtain ⟨y, hy, rfl⟩ := List.mem_map.mp h
        exact ⟨List.mem_cons_self x xs, List.mem_cons_of_mem x hy⟩
      · obtain ⟨h1, h2⟩ := ih pq h
        exact ⟨List.mem_cons_of_mem x h1, List.mem_cons_of_mem x h2⟩

theorem newClausePairs_mem (cfg : ProverConfig) (st : ProverState)
    (pq : PClause × PClause) (h : pq ∈ newClausePairsList cfg st) :
    pq.1 ∈ st.resolutionList ∧ pq.2 ∈ st.resolutionList := by
  obtain ⟨ctl, strats⟩ := cfg
  cases ctl with
  | saturationByLevels => exact pairsAux_mem _ pq h
  | supportSetStrategy =>
      unfold newClausePairsList at h
      simp only at h
      rcases List.mem_append.mp h with h | h
      · rw [List.mem_flatten] at h
        obtain ⟨l, hl, hpql⟩ := h
        obtain ⟨x, hx, rfl⟩ := List.mem_map.mp hl
        obtain ⟨y, hy, rfl⟩ := List.mem_map.mp hpql
        exact ⟨List.mem_of_mem_filter hx, List.mem_of_mem_filter hy⟩
      · obtain ⟨h1, h2⟩ := pairsAux_mem _ pq h
        exact ⟨List.mem_of_mem_filter h1, List.mem_of_mem_filter h2⟩

theorem runPass_finished (cfg : ProverConfig) :
    ∀ (pairs : List (PClause × PClause)) (temp0 temp : List PClause),
      runPass cfg pairs temp0 = .finished temp →
      ∀ t ∈ temp, t ∈ temp0 ∨
        ∃ pq ∈ pairs, t = resolveRule cfg pq.1 pq.2 ∧ (resolveRule cfg pq.1 pq.2).isNewKnowledge := by
  intro pairs
  induction pairs with
  | nil =>
      intro temp0 temp h t ht
      rw [runPass] at h
      injection h with h
      exact Or.inl (h ▸ ht)
  | cons pq rest ih =>
      obtain ⟨x, y⟩ := pq
      intro temp0 temp h t ht
      rw [runPass] at h
      by_cases hn : (resolveRule cfg x y).clauseOf = ∅
      · rw [if_pos hn] at h
        exact absurd h (by simp)
      · rw [if_neg hn] at h
        by_cases hnew : (resolveRule cfg x y).isNewKnowledge
        · rw [if_pos hnew] at h
          rcases ih _ _ h t ht with h2 | ⟨pq2, hpq2, ht2⟩
          · rcases mem_pyInsertP _ _ _ h2 with h3 | h3
            · exact Or.inl h3
            · exact Or.inr ⟨(x, y), List.mem_cons_self _ _, h3, h3 ▸ hnew⟩
          · exact Or.inr ⟨pq2, List.mem_cons_of_mem _ hpq2, ht2⟩
        · rw [if_neg hnew] at h
          rcases ih _ _ h t ht with h2 | ⟨pq2, hpq2, ht2⟩
          · exact Or.inl h2
          · exact Or.inr ⟨pq2, List.mem_cons_of_mem _ hpq2, ht2⟩

theorem runPass_foundNil (cfg : ProverConfig) :
    ∀ (pairs : List (PClause × PClause)) (temp0 : List PClause) (fin : PClause),
      runPass cfg pairs temp0 = .foundNil fin →
      ∃ pq ∈ pairs, fin = resolveRule cfg pq.1 pq.2 := by
  intro pairs
  induction pairs with
  | nil =>
      intro temp0 fin h
      rw [runPass] at h
      exact absurd h (by simp)
  | cons pq rest ih =>
      obtain ⟨x, y⟩ := pq
      intro temp0 fin h
      rw [runPass] at h
      by_cases hn : (resolveRule cfg x y).clauseOf = ∅
      · rw [if_pos hn] at h
        injection h with h
        exact ⟨(x, y), List.mem_cons_self _ _, h.symm⟩
      · rw [if_neg hn] at h
        by_cases hnew : (resolveRule cfg x y).isNewKnowledge
        · rw [if_pos hnew] at h
          obtain ⟨pq2, hpq2, hfin⟩ := ih _ _ h
          exact ⟨pq2, List.mem_cons_of_mem _ hpq2, hfin⟩
        · rw [if_neg hnew] at h
          obtain ⟨pq2, hpq2, hfin⟩ := ih _ _ h
          exact ⟨pq2, List.mem_cons_of_mem _ hpq2, hfin⟩

theorem resolveRule_clause_subset (cfg : ProverConfig) (x y : PClause) :
    (resolveRule cfg x y).clauseOf ⊆ x.clauseOf ∪ y.clauseOf := by
  unfold resolveRule
  by_cases h : removesInsignificantClauses cfg.strats
  · rw [if_pos h]
    exact resolveClauseNT_subset _ _
  · rw [if_neg h]
    exact resolveClausePT_subset _ _

theorem resolveRule_not_taut (cfg : ProverConfig) (x y : PClause)
    (hrem : removesInsignificantClauses cfg.strats = true)
    (hx : ¬ x.clauseOf.isTautology) (hy : ¬ y.clauseOf.isTautology) :
    ¬ (resolveRule cfg x y).clauseOf.isTautology := by
  unfold resolveRule
  rw [if_pos hrem]
  exact resolveClauseNT_not_tautology _ _ hx hy

theorem clausesLF_filter_taut (L : List PClause) :
    clausesLF (L.filter (fun p => !(decide p.clauseOf.isTautology))) =
      (clausesLF L).filter (fun c => ¬ c.isTautology) := by
  unfold clausesLF
  ext c
  simp only [List.mem_toFinset, List.mem_map, List.mem_filter, Finset.mem_filter,
    Bool.not_eq_true', decide_eq_false_iff_not]
  constructor
  · rintro ⟨p, ⟨hp, hnt⟩, rfl⟩
    exact ⟨⟨p, hp, rfl⟩, hnt⟩
  · rintro ⟨⟨p, hp, rfl⟩, hnt⟩
    exact ⟨p, ⟨hp, hnt⟩, rfl⟩

theorem clausesLF_subset_powerset (R : List PClause) (U : Finset LogicLiteral)
    (h : ∀ p ∈ R, p.clauseOf ⊆ U) : clausesLF R ⊆ U.powerset := by
  intro c hc
  obtain ⟨p, hp, rfl⟩ := List.mem_map.mp (List.mem_toFinset.mp hc)
  exact Finset.mem_powerset.mpr (h p hp)

theorem litsOfR_subset : ∀ (R : List PClause), ∀ p ∈ R, p.clauseOf ⊆ litsOfR R := by
  intro R
  induction R with
  | nil =>
      intro p hp
      exact absurd hp (List.not_mem_nil p)
  | cons q R ih =>
      intro p hp
      have hstep : litsOfR (q :: R) = q.clauseOf ∪ litsOfR R := rfl
      rcases List.mem_cons.mp hp with rfl | hp2
      · rw [hstep]
        exact Finset.subset_union_left
      · rw [hstep]
        exact (ih p hp2).trans Finset.subset_union_right

theorem resolutionLoop_terminates (cfg : ProverConfig)
    (hnr : SimpStrategy.redundantClauseRemoval ∉ cfg.strats) (U : Finset LogicLiteral) :
    ∀ (n : Nat) (st : ProverState),
      (∀ p ∈ st.resolutionList, p.clauseOf ⊆ U) →
      (removesInsignificantClauses cfg.strats = true →
        ∀ p ∈ st.resolutionList, ¬ p.clauseOf.isTautology) →
      U.powerset.card + 1 ≤ n + (clausesLF st.resolutionList).card →
      resolutionLoop cfg n st ≠ none := by
  intro n
  induction n with
  | zero =>
      intro st hU _ hcard
      exfalso
      have hle : (clausesLF st.resolutionList).card ≤ U.powerset.card :=
        Finset.card_le_card (clausesLF_subset_powerset _ U hU)
      omega
  | succ n ih =>
      intro st hU hT hcard
      rw [resolutionLoop]
      cases hpass : runPass cfg (newClausePairsList cfg st) [] with
      | foundNil fin => simp
      | finished temp =>
          dsimp only
          by_cases hall : (temp.all (fun t =>
              memClauseL t.clauseOf st.resolutionList)) = true
          · rw [if_pos hall]
            simp
          · rw [if_neg hall]
            have htempP : ∀ t ∈ temp,
                ∃ pq ∈ newClausePairsList cfg st, t = resolveRule cfg pq.1 pq.2 := by
              intro t ht
              rcases runPass_finished cfg _ [] temp hpass t ht with h2 | ⟨pq, hpq, ht2, _⟩
              · exact absurd h2 (List.not_mem_nil t)
              · exact ⟨pq, hpq, ht2⟩
            obtain ⟨t0, ht0, ht0n⟩ :
                ∃ t ∈ temp, ¬ (memClauseL t.clauseOf st.resolutionList = true) := by
              by_contra hc
              push_neg at hc
              exact hall (List.all_eq_true.mpr hc)
            have ht0new : t0.clauseOf ∉ clausesLF st.resolutionList :=
              fun hc => ht0n ((memClauseL_iff _ _).mpr hc)
            have htempU : ∀ t ∈ temp, t.clauseOf ⊆ U := by
              intro t ht
              obtain ⟨pq, hpq, rfl⟩ := htempP t ht
              obtain ⟨h1, h2⟩ := newClausePairs_mem cfg st pq hpq
              exact (resolveRule_clause_subset cfg pq.1 pq.2).trans
                (Finset.union_subset (hU _ h1) (hU _ h2))
            have htempT : removesInsignificantClauses cfg.strats = true →
                ∀ t ∈ temp, ¬ t.clauseOf.isTautology := by
              intro hrem t ht
              obtain ⟨pq, hpq, rfl⟩ := htempP t ht
              obtain ⟨h1, h2⟩ := newClausePairs_mem cfg st pq hpq
              exact resolveRule_not_taut cfg pq.1 pq.2 hrem
                (hT hrem _ h1) (hT hrem _ h2)
            have hgrow : (clausesLF st.resolutionList).card <
                (clausesLF (consolidateP cfg st temp).resolutionList).card := by
              apply Finset.card_lt_card
              have hres : (consolidateP cfg st temp).resolutionList =
                  simplifyListP cfg.strats
                    (temp.foldl pyInsertP st.resolutionList) := rfl
              rw [hres, simplifyListP_no_redundant cfg.strats hnr]
              by_cases hrem : removesInsignificantClauses cfg.strats = true
              · rw [if_pos hrem, clausesLF_filter_taut, clausesLF_foldl]
                rw [Finset.ssubset_iff_of_subset]
                · exact ⟨t0.clauseOf,
                    Finset.mem_filter.mpr
                      ⟨Finset.mem_union_right _
                        (List.mem_toFinset.mpr (List.mem_map.mpr ⟨t0, ht0, rfl⟩)),
                        htempT hrem t0 ht0⟩,
                    ht0new⟩
                · intro c hc
                  refine Finset.mem_filter.mpr ⟨Finset.mem_union_left _ hc, ?_⟩
                  obtain ⟨p, hp, rfl⟩ := List.mem_map.mp (List.mem_toFinset.mp hc)
                  exact hT hrem p hp
              · rw [if_neg hrem, clausesLF_foldl]
                rw [Finset.ssubset_iff_of_subset Finset.subset_union_left]
                exact ⟨t0.clauseOf,
                  Finset.mem_union_right _
                    (List.mem_toFinset.mpr (List.mem_map.mpr ⟨t0, ht0, rfl⟩)),
                  ht0new⟩
            apply ih
            · intro p hp
              have hp2 := mem_simplifyListP cfg.strats _ p hp
              rcases mem_foldl_pyInsertP temp _ p hp2 with hpR | hptemp
              · exact hU p hpR
              · exact htempU p hptemp
            · intro hrem p hp
              have hres : (consolidateP cfg st temp).resolutionList =
                  simplifyListP cfg.strats
                    (temp.foldl pyInsertP st.resolutionList) := rfl
              rw [hres, simplifyListP_no_redundant cfg.strats hnr, if_pos hrem] at hp
              have := List.mem_filter.mp hp
              simpa using this.2
            · omega

/-- Claim C1, amended: `resolve` terminates — the saturation loop
returns a report after finitely many iterations, a number bounded by
the count of distinct clauses over the literals of the prepared working
set — for both control strategies and every configured simplification
sequence that does not contain `RedundantClauseRemoval` (so: no
simplification, or tautology removal only), for every premise set, goal
and initial acquired knowledge.  The counterexample shows the claim
fails as stated: with `RedundantClauseRemoval` the working set is not
monotone and the loop can diverge. -/
theorem c1_termination_amended (cfg : ProverConfig) (st : ProverState)
    (goal? : Option (List LogicLiteral)) (keep : Bool)
    (hnr : SimpStrategy.redundantClauseRemoval ∉ cfg.strats) :
    ∃ n, resolve cfg st goal? keep n ≠ none := by
  refine ⟨(litsOfR (prepareP cfg st goal? keep).resolutionList).powerset.card + 1, ?_⟩
  unfold resolve
  apply resolutionLoop_terminates cfg hnr
  · exact litsOfR_subset _
  · intro hrem p hp
    have hres : (prepareP cfg st goal? keep).resolutionList =
        simplifyListP cfg.strats
          (((st.premises.map PClause.base) ++ (if keep then st.acquired else []) ++
            ((negGoalUnitsOf (goal?.getD st.goalLits)).map PClause.base)).foldl
            pyInsertP []) := rfl
    rw [hres, simplifyListP_no_redundant cfg.strats hnr, if_pos hrem] at hp
    have := List.mem_filter.mp hp
    simpa using this.2
  · omega

theorem c1_termination_amended_witness :
    (SimpStrategy.redundantClauseRemoval ∉ ([] : List SimpStrategy)) ∧
    (∃ n, resolve ⟨ControlChoice.saturationByLevels, []⟩ exDivStart none false n ≠
      none) :=
  ⟨by decide,
    c1_termination_amended ⟨ControlChoice.saturationByLevels, []⟩ exDivStart
      none false (by decide)⟩

/-- Claim C9, counterexample: the second `resolve` call of
`c9SecondReport` succeeds, but its dependent-knowledge tuple is *not*
topologically ordered with respect to the report's combined sequence:
the kept resolvent `{a}` has the old negated-goal unit `{~b}` as a
parent, which is neither a premise, nor one of the new negated-goal
units (`{~a}`), nor an earlier entry of the tuple. -/
theorem c9_topological_counterexample :
    c9SecondReport.map (fun rep => (rep.goalIsTrue, topoOk rep)) =
      some (true, false) := by decide

theorem topoAux_append (P NG : List Clause) :
    ∀ (L1 L2 acc : List PClause),
      topoAux P NG acc (L1 ++ L2) =
        (topoAux P NG acc L1 && topoAux P NG (acc ++ L1) L2) := by
  intro L1
  induction L1 with
  | nil =>
      intro L2 acc
      simp [topoAux]
  | cons x L1 ih =>
      intro L2 acc
      rw [List.cons_append, topoAux, topoAux, ih]
      simp [Bool.and_assoc, List.append_assoc]

theorem walk_last_mem (c : Clause) (l r : PClause) :
    (PClause.res c l r) ∈ getDependentKnowledge (PClause.res c l r) := by
  rw [getDependentKnowledge]
  exact List.mem_append.mpr (Or.inr (List.mem_singleton.mpr rfl))

theorem groundedIn_resolveRule (cfg : ProverConfig) (P NG : List Clause)
    (x y : PClause) (hx : GroundedIn P NG x) (hy : GroundedIn P NG y) :
    GroundedIn P NG (resolveRule cfg x y) := by
  unfold resolveRule
  by_cases h : removesInsignificantClauses cfg.strats
  · rw [if_pos h]
    exact GroundedIn.res _ x y hx hy
  · rw [if_neg h]
    exact GroundedIn.res _ x y hx hy

theorem walk_topo (P NG : List Clause) :
    ∀ t, GroundedIn P NG t →
      ∀ acc, topoAux P NG acc (getDependentKnowledge t) = true := by
  have hnode : ∀ (q : PClause) (acc2 : List PClause), GroundedIn P NG q →
      (∀ c2 l2 r2, q = PClause.res c2 l2 r2 → q ∈ acc2) →
      (decide (q.clauseOf ∈ P) || decide (q.clauseOf ∈ NG) ||
        acc2.any (fun m => decide (m.clauseOf = q.clauseOf))) = true := by
    intro q acc2 hgq hres
    cases q with
    | base cq =>
        cases hgq with
        | base _ hmem =>
            rcases hmem with hmem | hmem <;> simp [PClause.clauseOf, hmem]
    | res c2 l2 r2 =>
        have hmem := hres c2 l2 r2 rfl
        have hany : acc2.any
            (fun m => decide (m.clauseOf = (PClause.res c2 l2 r2).clauseOf)) = true :=
          List.any_eq_true.mpr ⟨_, hmem, by simp⟩
        simp [hany]
  intro t hg
  induction hg with
  | base c hc =>
      intro acc
      rfl
  | res c l r hl hr ihl ihr =>
      intro acc
      rw [getDependentKnowledge, topoAux_append, topoAux_append, ihl, ihr]
      simp only [Bool.true_and]
      rw [topoAux]
      have hchkl : (decide (l.clauseOf ∈ P) || decide (l.clauseOf ∈ NG) ||
          (acc ++ (getDependentKnowledge l ++ getDependentKnowledge r)).any
            (fun m => decide (m.clauseOf = l.clauseOf))) = true := by
        apply hnode l _ hl
        intro c2 l2 r2 hleq
        subst hleq
        exact List.mem_append.mpr (Or.inr (List.mem_append.mpr
          (Or.inl (walk_last_mem c2 l2 r2))))
      have hchkr : (decide (r.clauseOf ∈ P) || decide (r.clauseOf ∈ NG) ||
          (acc ++ (getDependentKnowledge l ++ getDependentKnowledge r)).any
            (fun m => decide (m.clauseOf = r.clauseOf))) = true := by
        apply hnode r _ hr
        intro c2 l2 r2 hreq
        subst hreq
        exact List.mem_append.mpr (Or.inr (List.mem_append.mpr
          (Or.inr (walk_last_mem c2 l2 r2))))
      have h0 : topoAux P NG
          ((acc ++ (getDependentKnowledge l ++ getDependentKnowledge r)) ++
            [PClause.res c l r]) [] = true := rfl
      rw [h0]
      simp only [parentsOfP, List.all_cons, List.all_nil, Bool.and_true]
      rw [hchkl, hchkr]
      rfl

theorem resolutionLoop_topo (cfg : ProverConfig) :
    ∀ (n : Nat) (st : ProverState) (rep : ResolutionReport) (st2 : ProverState),
      (∀ p ∈ st.resolutionList,
        GroundedIn st.premises (negGoalUnitsOf st.goalLits) p) →
      resolutionLoop cfg n st = some (rep, st2) →
      rep.goalIsTrue = true → topoOk rep = true := by
  intro n
  induction n with
  | zero =>
      intro st rep st2 _ h
      exact absurd h (by simp [resolutionLoop])
  | succ n ih =>
      intro st rep st2 hG hrun hsucc
      rw [resolutionLoop] at hrun
      cases hpass : runPass cfg (newClausePairsList cfg st) [] with
      | foundNil fin =>
          rw [hpass] at hrun
          dsimp only at hrun
          injection hrun with hrun
          injection hrun with hrep hst2
          obtain ⟨pq, hpq, hfin⟩ := runPass_foundNil cfg _ [] fin hpass
          obtain ⟨h1, h2⟩ := newClausePairs_mem cfg st pq hpq
          have hgfin : GroundedIn st.premises (negGoalUnitsOf st.goalLits) fin := by
            rw [hfin]
            exact groundedIn_resolveRule cfg _ _ _ _ (hG _ h1) (hG _ h2)
          rw [← hrep]
          unfold topoOk writeReport
          exact walk_topo _ _ fin hgfin []
      | finished temp =>
          rw [hpass] at hrun
          dsimp only at hrun
          by_cases hall : (temp.all (fun t =>
              memClauseL t.clauseOf st.resolutionList)) = true
          · rw [if_pos hall] at hrun
            injection hrun with hrun
            injection hrun with hrep hst2
            rw [← hrep] at hsucc
            exact absurd hsucc (by simp [writeReport])
          · rw [if_neg hall] at hrun
            have hGnext : ∀ p ∈ (consolidateP cfg st temp).resolutionList,
                GroundedIn (consolidateP cfg st temp).premises
                  (negGoalUnitsOf (consolidateP cfg st temp).goalLits) p := by
              intro p hp
              have hp2 := mem_simplifyListP cfg.strats _ p hp
              have hGtemp : ∀ t ∈ temp,
                  GroundedIn st.premises (negGoalUnitsOf st.goalLits) t := by
                intro t ht
                rcases runPass_finished cfg _ [] temp hpass t ht with h2 | ⟨pq, hpq, ht2, _⟩
                · exact absurd h2 (List.not_mem_nil t)
                · obtain ⟨h1, h2⟩ := newClausePairs_mem cfg st pq hpq
                  rw [ht2]
                  exact groundedIn_resolveRule cfg _ _ _ _ (hG _ h1) (hG _ h2)
              rcases mem_foldl_pyInsertP temp _ p hp2 with hpR | hptemp
              · exact hG p hpR
              · exact hGtemp p hptemp
            exact ih (consolidateP cfg st temp) rep st2 hGnext hrun hsucc

/-- Claim C9, amended: for a `resolve` run with
`keep_acquired_knowledge = false` (a fresh derivation), a successful
refutation's dependent-knowledge tuple is topologically ordered: every
entry's parents are premises, negated-goal units of the current goal,
or occur (via clause equality) as earlier entries of the tuple — i.e.,
earlier entries of the combined sequence premises ++ negated_goal_units
++ ordered_resolvents.  The counterexample shows the claim fails as
stated for runs that keep acquired knowledge across a goal change: a
kept resolvent can have an old negated-goal unit as a parent, which
occurs nowhere in the new combined sequence. -/
theorem c9_topological_order (cfg : ProverConfig) (st : ProverState)
    (goal? : Option (List LogicLiteral)) (fuel : Nat)
    (rep : ResolutionReport) (st2 : ProverState)
    (hrun : resolve cfg st goal? false fuel = some (rep, st2))
    (hsucc : rep.goalIsTrue = true) :
    topoOk rep = true := by
  apply resolutionLoop_topo cfg fuel (prepareP cfg st goal? false) rep st2 ?_ hrun hsucc
  intro p hp
  have hp2 := mem_simplifyListP cfg.strats _ p hp
  rcases mem_foldl_pyInsertP _ _ p hp2 with hpR | hptemp
  · exact absurd hpR (List.not_mem_nil p)
  · rcases List.mem_append.mp hptemp with hpm | hpm
    · rcases List.mem_append.mp hpm with hpm2 | hpm2
      · obtain ⟨c, hc, rfl⟩ := List.mem_map.mp hpm2
        exact GroundedIn.base c (Or.inl hc)
      · simp at hpm2
    · obtain ⟨c, hc, rfl⟩ := List.mem_map.mp hpm
      exact GroundedIn.base c (Or.inr hc)

theorem c9_topological_order_witness :
    resolve exNoSimpConfig exC9WStart none false 2 =
      some (exC9WReport, exC9WState) ∧
    exC9WReport.goalIsTrue = true ∧ topoOk exC9WReport = true :=
  ⟨by decide, by decide,
    c9_topological_order exNoSimpConfig exC9WStart none 2 exC9WReport exC9WState
      (by decide) (by decide)⟩
